import Mathlib

/-!
The word2vec similarity engine of `word2vec.go`.

A shallow embedding of `Model.initVector`, `Model.distances`, `handleAnalogy`
and `readBlob`, and the properties of their specification.

Conventions of the embedding.

* Go `int` is `Int`; every index stays below the length of a slice that fits in
  memory, so no 64-bit wrap-around occurs.  A loop counter is a `Nat` that runs
  over the iterations that remain.
* `float32` is an abstract type `F` whose arithmetic is the record `FloatOps`;
  nothing is assumed about rounding.  `float64` is `Option S`, with `none` for
  NaN and `S` a linear order (the finite and infinite values, with the two zeros
  identified); the comparisons `>` and `>=` are those of IEEE 754: false as soon
  as one side is NaN.
* A run-time panic is a value of `Panic`.  `Run α` carries the result of a
  computation and the list of the indices with which the matrix `M` was accessed
  (an access that fails its bounds check is listed too).
* In one expression, index expressions are evaluated in lexical left-to-right
  order; the bounds check of the target of a plain assignment comes after its
  right-hand side.
-/

namespace Word2vec

/-! ## Run-time model -/

/-- The slices whose indexing can fail. -/
inductive Slice where
  | vocab
  | M
  | bi
  | vec
  | bestwd
  | bytes
deriving DecidableEq

/-- Run-time panics of the Go program. -/
inductive Panic where
  | indexOutOfRange (s : Slice) (idx : Int) (len : Nat)
  | sliceBoundsOutOfRange (s : Slice) (hi : Int)
  | makeLenOutOfRange
  | nilDereference
deriving DecidableEq

/-- Outcome of a computation: the accesses made to `M` and the result or panic. -/
structure Run (α : Type) where
  reads : List Int
  res : Except Panic α

/-- Return a value without any effect. -/
def Run.ret {α : Type} (a : α) : Run α := ⟨[], Except.ok a⟩

/-- Stop with a panic. -/
def Run.fail {α : Type} (e : Panic) : Run α := ⟨[], Except.error e⟩

/-- Sequencing: the second computation runs only when the first did not panic. -/
def Run.andThen {α β : Type} (x : Run α) (f : α → Run β) : Run β :=
  match x.res with
  | Except.ok a => ⟨x.reads ++ (f a).reads, (f a).res⟩
  | Except.error e => ⟨x.reads, Except.error e⟩

instance : Monad Run where
  pure := Run.ret
  bind := Run.andThen

/-- Go index expression `l[i]` on a slice other than `M`. -/
def getIdx {α : Type} (s : Slice) (l : List α) (i : Int) : Run α :=
  if i < 0 then Run.fail (Panic.indexOutOfRange s i l.length)
  else match l[i.toNat]? with
    | some x => Run.ret x
    | none => Run.fail (Panic.indexOutOfRange s i l.length)

/-- Go assignment `l[i] = v` on a slice other than `M`. -/
def setIdx {α : Type} (s : Slice) (l : List α) (i : Int) (v : α) : Run (List α) :=
  if i < 0 then Run.fail (Panic.indexOutOfRange s i l.length)
  else if i.toNat < l.length then Run.ret (l.set i.toNat v)
  else Run.fail (Panic.indexOutOfRange s i l.length)

/-! ## Data model -/

/-- `type Model struct { words, size int; vocab []string; M []float32 }`. -/
structure Model (F : Type) where
  words : Int
  size : Int
  vocab : List String
  M : List F
deriving DecidableEq

/-- `type wordDistance struct { Word string; Distance float64 }`. -/
structure wordDistance (S : Type) where
  Word : String
  Distance : Option S
deriving DecidableEq

/-- Arithmetic of `float32` (type `F`) and `float64` (type `Option S`). -/
structure FloatOps (F S : Type) where
  zero32 : F
  add32 : F → F → F
  sub32 : F → F → F
  mul32 : F → F → F
  div32 : F → F → F
  to64 : F → Option S
  to32 : Option S → F
  add64 : Option S → Option S → Option S
  sqrt64 : Option S → Option S

/-- `const maxSize int = 2000`. -/
def maxSize : Nat := 2000

/-- `const N int = 40`. -/
def N : Nat := 40

/-- `const analogy string = "analogy"`. -/
def analogy : String := "analogy"

/-- `const distance string = "distance"`. -/
def distance : String := "distance"

/-- The float64 constant `0.0`. -/
def zero64 {S : Type} [Zero S] : Option S := some 0

/-- IEEE comparison `x > y` on float64. -/
def gt64 {S : Type} [LinearOrder S] : Option S → Option S → Bool
  | some x, some y => decide (y < x)
  | _, _ => false

/-- IEEE comparison `x >= y` on float64. -/
def ge64 {S : Type} [LinearOrder S] : Option S → Option S → Bool
  | some x, some y => decide (y ≤ x)
  | _, _ => false

/-- The zero value of `wordDistance`, which fills `make([]wordDistance, N)`. -/
def emptySlot {S : Type} [Zero S] : wordDistance S := ⟨"", zero64⟩

/-- Index expression `m.M[i]`; the access is recorded. -/
def readM {F : Type} (m : Model F) (i : Int) : Run F :=
  if i < 0 then ⟨[i], Except.error (Panic.indexOutOfRange Slice.M i m.M.length)⟩
  else match m.M[i.toNat]? with
    | some x => ⟨[i], Except.ok x⟩
    | none => ⟨[i], Except.error (Panic.indexOutOfRange Slice.M i m.M.length)⟩

/-! ## `Model.distances`: word lookup (lines 158-170) -/

/-- The loop `for b = 0; b < m.words; b++ { if m.vocab[b] == v { break } }`,
with `n` iterations left; the result is the final value of `b`. -/
def lookupScan {F : Type} (m : Model F) (v : String) : Nat → Nat → Run Nat
  | 0, b => pure b
  | n + 1, b => do
    let w ← getIdx Slice.vocab m.vocab b
    if w = v then pure b else lookupScan m v n (b + 1)

/-- The body of `for k, v := range st`: the value stored in `bi[k]`. -/
def lookupWord {F : Type} (m : Model F) (v : String) : Run Int := do
  let b ← lookupScan m v m.words.toNat 0
  pure (if (b : Int) = m.words then -1 else (b : Int))

/-- The loop `for k, v := range st` that fills `bi`. -/
def lookupAll {F : Type} (m : Model F) : List String → Run (List Int)
  | [] => pure []
  | v :: st => do
    let b ← lookupWord m v
    let rest ← lookupAll m st
    pure (b :: rest)

/-! ## `Model.initVector` (lines 136-155) -/

/-- The loop `for a := 0; a < m.size; a++ { vec[a] += m.M[a+bi[b]*m.size] }`
for one query word whose index is `i`, with `n` iterations left. -/
def addRow {F S : Type} (ops : FloatOps F S) (m : Model F) (i : Int) :
    Nat → Nat → List F → Run (List F)
  | 0, _, vec => pure vec
  | n + 1, a, vec => do
    let x ← getIdx Slice.vec vec a
    let y ← readM m ((a : Int) + i * m.size)
    addRow ops m i n (a + 1) (vec.set a (ops.add32 x y))

/-- The loop `for b, _ := range st` of the `distance` case, over the indices
`bs` of `st` that remain. -/
def sumRows {F S : Type} (ops : FloatOps F S) (m : Model F) (bi : List Int) :
    List Nat → List F → Run (List F)
  | [], vec => pure vec
  | b :: bs, vec => do
    let i ← getIdx Slice.bi bi b
    if i = -1 then sumRows ops m bi bs vec
    else do
      let vec1 ← addRow ops m i m.size.toNat 0 vec
      sumRows ops m bi bs vec1

/-- The loop of the `analogy` case:
`vec[a] = m.M[a+bi[1]*m.size] - m.M[a+bi[0]*m.size] + m.M[a+bi[2]*m.size]`. -/
def analogyLoop {F S : Type} (ops : FloatOps F S) (m : Model F) (bi : List Int) :
    Nat → Nat → List F → Run (List F)
  | 0, _, vec => pure vec
  | n + 1, a, vec => do
    let b1 ← getIdx Slice.bi bi 1
    let x1 ← readM m ((a : Int) + b1 * m.size)
    let b0 ← getIdx Slice.bi bi 0
    let x0 ← readM m ((a : Int) + b0 * m.size)
    let b2 ← getIdx Slice.bi bi 2
    let x2 ← readM m ((a : Int) + b2 * m.size)
    let vec1 ← setIdx Slice.vec vec a (ops.add32 (ops.sub32 x1 x0) x2)
    analogyLoop ops m bi n (a + 1) vec1

/-- `func (m *Model) initVector(bi []int, st []string, purpose string) []float32`. -/
def initVector {F S : Type} (ops : FloatOps F S) (m : Model F) (bi : List Int)
    (st : List String) (purpose : String) : Run (List F) :=
  let vec := List.replicate maxSize ops.zero32
  if purpose = distance then sumRows ops m bi (List.range st.length) vec
  else if purpose = analogy then analogyLoop ops m bi m.size.toNat 0 vec
  else pure vec

/-! ## `Model.distances` (lines 157-209) -/

/-- Lines 172-179: divide every component of `vec` by its Euclidean length. -/
def normalize {F S : Type} [Zero S] (ops : FloatOps F S) (vec : List F) : List F :=
  let leng := vec.foldl (fun l a => ops.add64 l (ops.to64 (ops.mul32 a a))) zero64
  let leng := ops.sqrt64 leng
  vec.map (fun a => ops.div32 a (ops.to32 leng))

/-- The condition `c == bi[0] || c == bi[1] || c == bi[2]` of line 182. -/
def analogySkip (bi : List Int) (c : Int) : Run Bool := do
  let b0 ← getIdx Slice.bi bi 0
  if c = b0 then pure true
  else do
    let b1 ← getIdx Slice.bi bi 1
    if c = b1 then pure true
    else do
      let b2 ← getIdx Slice.bi bi 2
      pure (decide (c = b2))

/-- Lines 185-190: `a := 0; for _, b := range bi { if b == c { a = 1 } }`. -/
def queryFlag (bi : List Int) (c : Int) : Int :=
  bi.foldl (fun a b => if b = c then 1 else a) 0

/-- Lines 194-197: `dist += float64(vec[a] * m.M[a+c*m.size])`, `n` iterations left. -/
def dot {F S : Type} (ops : FloatOps F S) (m : Model F) (vec : List F) (c : Nat) :
    Nat → Nat → Option S → Run (Option S)
  | 0, _, dist => pure dist
  | n + 1, a, dist => do
    let v ← getIdx Slice.vec vec a
    let x ← readM m ((a : Int) + (c : Int) * m.size)
    dot ops m vec c n (a + 1) (ops.add64 dist (ops.to64 (ops.mul32 v x)))

/-- Lines 200-202: `for d := N - 1; d > a; d-- { bestwd[d] = bestwd[d-1] }`,
with `k` iterations left, so that `d = a + k`. -/
def shiftDown {S : Type} [Zero S] (a : Nat) : Nat → List (wordDistance S) → List (wordDistance S)
  | 0, best => best
  | k + 1, best => shiftDown a k (best.set (a + k + 1) (best.getD (a + k) emptySlot))

/-- Lines 198-206: the scan `for a = 0; a < N; a++` that inserts row `c` with
score `dist` at the first rank whose score is smaller; `n` iterations left. -/
def insertBest {F S : Type} [LinearOrder S] [Zero S] (m : Model F) (c : Nat) (dist : Option S) :
    Nat → Nat → List (wordDistance S) → Run (List (wordDistance S))
  | 0, _, best => pure best
  | n + 1, a, best => do
    let cur ← getIdx Slice.bestwd best a
    if gt64 dist cur.Distance then do
      let best1 := shiftDown a (N - 1 - a) best
      let w ← getIdx Slice.vocab m.vocab c
      setIdx Slice.bestwd best1 a ⟨w, dist⟩
    else insertBest m c dist n (a + 1) best

/-- Lines 181-207: the loop `for c := 0; c < m.words; c++`, `n` iterations left. -/
def rankLoop {F S : Type} [LinearOrder S] [Zero S] (ops : FloatOps F S) (m : Model F)
    (bi : List Int) (purpose : String) (vec : List F) :
    Nat → Nat → List (wordDistance S) → Run (List (wordDistance S))
  | 0, _, best => pure best
  | n + 1, c, best => do
    let skip ← (if purpose = analogy then analogySkip bi c else pure false)
    if skip then rankLoop ops m bi purpose vec n (c + 1) best
    else if queryFlag bi c = 1 then rankLoop ops m bi purpose vec n (c + 1) best
    else do
      let dist ← dot ops m vec c m.size.toNat 0 zero64
      let best1 ← insertBest m c dist N 0 best
      rankLoop ops m bi purpose vec n (c + 1) best1

/-- `func (m *Model) distances(st []string, purpose string) []wordDistance`. -/
def distances {F S : Type} [LinearOrder S] [Zero S] (ops : FloatOps F S) (m : Model F)
    (st : List String) (purpose : String) : Run (List (wordDistance S)) := do
  let bi ← lookupAll m st
  let vec ← initVector ops m bi st purpose
  rankLoop ops m bi purpose (normalize ops vec) m.words.toNat 0 (List.replicate N emptySlot)

/-! ## `handleAnalogy` (lines 218-227) -/

/-- The call `strings.Split(word, " ")` on the characters that remain, `cur`
being the characters of the current piece in reverse order. -/
def splitAux : List Char → List Char → List String
  | cur, [] => [String.mk cur.reverse]
  | cur, c :: cs =>
    if c = ' ' then String.mk cur.reverse :: splitAux [] cs else splitAux (c :: cur) cs

/-- `strings.Split(word, " ")`. -/
def stringsSplit (word : String) : List String := splitAux [] word.data

/-- `func handleAnalogy(w http.ResponseWriter, r *http.Request)`: `model` is the
process-wide model pointer, `word` the form value, the result the text written
to the response. -/
def handleAnalogy {F S : Type} [LinearOrder S] [Zero S] (ops : FloatOps F S)
    (model : Option (Model F)) (word : String) : Run String :=
  let words := stringsSplit word
  if words.length ≠ 3 then pure "3 WORDS!"
  else match model with
    | none => Run.fail Panic.nilDereference
    | some m => do
      let data ← distances ops m words analogy
      let first ← getIdx Slice.bestwd data 0
      pure first.Word

/-! ## `readBlob` (lines 107-134) -/

/-- Position of the first occurrence of `w` in `vocab`, or the sentinel -1. -/
def firstIndex (vocab : List String) (w : String) : Int :=
  if w ∈ vocab then (vocab.indexOf w : Int) else -1

/-- The score of row `c` as the loop of lines 194-197 computes it (NaN when the
loop panics). -/
def score {F S : Type} [Zero S] (ops : FloatOps F S) (m : Model F) (vec : List F) (c : Nat) :
    Option S :=
  match (dot ops m vec c m.size.toNat 0 zero64).res with
  | Except.ok d => d
  | Except.error _ => none

/-- The entry that `distances` stores for row `c`. -/
def entryOf {F S : Type} [Zero S] (ops : FloatOps F S) (m : Model F) (vec : List F) (c : Nat) :
    wordDistance S :=
  ⟨m.vocab.getD c "", score ops m vec c⟩

/-- The rows that are not excluded: those whose index is not in `bi`, in
ascending order. -/
def candidates {F : Type} (m : Model F) (bi : List Int) : List Nat :=
  (List.range m.words.toNat).filter (fun c => decide ((c : Int) ∉ bi))

/-- The rows of `cands` whose score is strictly greater than 0, with that score. -/
def positives {S : Type} [LinearOrder S] [Zero S] (sc : Nat → Option S) (cands : List Nat) :
    List (Nat × S) :=
  cands.filterMap (fun c => match sc c with
    | some d => if 0 < d then some (c, d) else none
    | none => none)

/-- Ranking of rows with their scores: descending score, ties in ascending row
index. -/
def rankBefore {S : Type} [LinearOrder S] (p q : Nat × S) : Prop :=
  q.2 < p.2 ∨ (p.2 = q.2 ∧ p.1 ≤ q.1)

instance {S : Type} [LinearOrder S] : DecidableRel (rankBefore : Nat × S → Nat × S → Prop) :=
  fun p q => by unfold rankBefore; exact inferInstance

instance rankBefore_isTotal {S : Type} [LinearOrder S] :
    IsTotal (Nat × S) rankBefore where
  total := by
    intro p q
    unfold rankBefore
    rcases lt_trichotomy p.2 q.2 with h | h | h
    · exact Or.inr (Or.inl h)
    · rcases le_total p.1 q.1 with h1 | h1
      · exact Or.inl (Or.inr ⟨h, h1⟩)
      · exact Or.inr (Or.inr ⟨h.symm, h1⟩)
    · exact Or.inl (Or.inl h)

instance rankBefore_isTrans {S : Type} [LinearOrder S] :
    IsTrans (Nat × S) rankBefore where
  trans := by
    intro p q t hpq hqt
    unfold rankBefore at *
    rcases hpq with h | ⟨h, h1⟩
    · rcases hqt with h2 | ⟨h2, _⟩
      · exact Or.inl (lt_trans h2 h)
      · exact Or.inl (by rw [← h2]; exact h)
    · rcases hqt with h2 | ⟨h2, h3⟩
      · exact Or.inl (by rw [h]; exact h2)
      · exact Or.inr ⟨h.trans h2, le_trans h1 h3⟩

instance rankBefore_isAntisymm {S : Type} [LinearOrder S] :
    IsAntisymm (Nat × S) rankBefore where
  antisymm := by
    intro p q hpq hqp
    unfold rankBefore at *
    rcases hpq with h | ⟨h, h1⟩
    · rcases hqp with h2 | ⟨h2, _⟩
      · exact absurd h (lt_asymm h2)
      · rw [h2] at h
        exact absurd h (lt_irrefl _)
    · rcases hqp with h2 | ⟨_, h3⟩
      · rw [h] at h2
        exact absurd h2 (lt_irrefl _)
      · exact Prod.ext (le_antisymm h1 h3) h

/-- The rows of the reference top-K: the candidates whose score is strictly
positive, in descending score with ties in ascending row index, cut to `N`. -/
def topRows {S : Type} [LinearOrder S] [Zero S] (sc : Nat → Option S) (cands : List Nat) :
    List (Nat × S) :=
  ((positives sc cands).insertionSort rankBefore).take N

/-- The entry of a ranked row. -/
def rowEntry {S : Type} (word : Nat → String) (p : Nat × S) : wordDistance S :=
  ⟨word p.1, some p.2⟩

/-- The reference top-K list: the entries of `topRows`, padded with empty slots
up to length `N`. -/
def topKReference {S : Type} [LinearOrder S] [Zero S] (sc : Nat → Option S) (word : Nat → String)
    (cands : List Nat) : List (wordDistance S) :=
  (topRows sc cands).map (rowEntry word) ++
    List.replicate (N - (topRows sc cands).length) emptySlot

/-- Component `a` of row `i` of the matrix: the entry `M[a + i*size]`. -/
def rowAt {F S : Type} (ops : FloatOps F S) (m : Model F) (i : Int) (a : Nat) : F :=
  m.M.getD ((a : Int) + i * m.size).toNat ops.zero32

/-- Sum of component `a` of the rows `rows`, accumulated in the order of the
list and starting from zero. -/
def sumAt {F S : Type} (ops : FloatOps F S) (m : Model F) (a : Nat) (rows : List Int) : F :=
  rows.foldl (fun acc i => ops.add32 acc (rowAt ops m i a)) ops.zero32

/-! ## Closed forms used in the proofs -/

/-- Insertion of `e` in front of the first entry whose score is smaller. -/
def insertPure {S : Type} [LinearOrder S] (e : wordDistance S) :
    List (wordDistance S) → List (wordDistance S)
  | [] => [e]
  | x :: xs => if gt64 e.Distance x.Distance then e :: x :: xs else x :: insertPure e xs

/-- One round of the loop over the rows: insertion, then the last entry is lost. -/
def stepPure {S : Type} [LinearOrder S] (e : wordDistance S) (best : List (wordDistance S)) :
    List (wordDistance S) :=
  (insertPure e best).take N

/-- The rounds of the rows `cands`, from the buffer `best`. -/
def foldRows {S : Type} [LinearOrder S] (entry : Nat → wordDistance S) (cands : List Nat)
    (best : List (wordDistance S)) : List (wordDistance S) :=
  cands.foldl (fun b c => stepPure (entry c) b) best

/-- The buffer is in non-increasing order of `Distance`. -/
def Desc {S : Type} [LinearOrder S] (l : List (wordDistance S)) : Prop :=
  l.Pairwise (fun x y => ge64 x.Distance y.Distance = true)

/-! ## Test data -/

/-- Integer arithmetic standing in for the floating-point operations. -/
def intOps : FloatOps Int Int where
  zero32 := 0
  add32 := fun x y => x + y
  sub32 := fun x y => x - y
  mul32 := fun x y => x * y
  div32 := fun x y => x / y
  to64 := fun x => some x
  to32 := fun x => x.getD 0
  add64 := fun x y => match x, y with
    | some a, some b => some (a + b)
    | _, _ => none
  sqrt64 := fun x => x.map (fun a => (Nat.sqrt a.toNat : Int))

/-- Four words in dimension 2. -/
def sampleModel : Model Int := ⟨4, 2, ["a", "b", "c", "d"], [5, 0, 3, 4, 4, 3, 0, 5]⟩

/-- Four words in dimension 2 whose rows have length 1, as after a load. -/
def unitModel : Model Int := ⟨4, 2, ["a", "b", "c", "d"], [1, 0, 0, 1, 1, 0, 0, 1]⟩

/-- The result of the query `a` in distance mode on the sample model. -/
def sampleResult : List (wordDistance Int) :=
  [⟨"c", some 4⟩, ⟨"b", some 3⟩] ++ List.replicate 38 emptySlot

/-- A model whose vocabulary holds the empty word. -/
def emptyWordModel : Model Int := ⟨2, 1, ["", "a"], [1, 1]⟩

/-- A model whose rows all have the same score for the query `q`. -/
def tieModel : Model Int := ⟨3, 1, ["q", "x", "y"], [1, 1, 1]⟩

/-- The value of a signed integer `(negative, magnitude)`; `(true, 0)` is -0. -/
def signedVal (x : Bool × Nat) : Int := if x.1 then -(x.2 : Int) else (x.2 : Int)

/-- The signed integer of value `v`; the zero it gives is +0. -/
def signedOf (v : Int) : Bool × Nat := (decide (v < 0), v.natAbs)

/-- Addition of signed integers with the zeros of IEEE 754 (round to nearest):
a sum that is zero is -0 only when both terms are -0. -/
def signedAdd (x y : Bool × Nat) : Bool × Nat :=
  if signedVal x + signedVal y = 0 then (x.1 && y.1, 0) else signedOf (signedVal x + signedVal y)

/-- Integer arithmetic with a signed zero standing in for float32: sums, differences
and products are the IEEE ones on integers; the quotient truncates. -/
def signedOps : FloatOps (Bool × Nat) Int where
  zero32 := (false, 0)
  add32 := signedAdd
  sub32 := fun x y => signedAdd x (!y.1, y.2)
  mul32 := fun x y => (xor x.1 y.1, x.2 * y.2)
  div32 := fun x y => (xor x.1 y.1, x.2 / y.2)
  to64 := fun x => some (signedVal x)
  to32 := fun x => signedOf (x.getD 0)
  add64 := fun x y => match x, y with
    | some a, some b => some (a + b)
    | _, _ => none
  sqrt64 := fun x => x.map (fun a => (Nat.sqrt a.toNat : Int))

/-- One word in dimension 2 whose unit row is `(-0, 1)`. -/
def negZeroModel : Model (Bool × Nat) := ⟨1, 2, ["a"], [(true, 0), (false, 1)]⟩

instance {α : Type} [DecidableEq α] : DecidableEq (Except Panic α) := fun x y =>
  match x, y with
  | Except.ok a, Except.ok b =>
    if h : a = b then isTrue (by rw [h]) else isFalse (fun e => h (by cases e; rfl))
  | Except.error a, Except.error b =>
    if h : a = b then isTrue (by rw [h]) else isFalse (fun e => h (by cases e; rfl))
  | Except.ok _, Except.error _ => isFalse (fun e => by cases e)
  | Except.error _, Except.ok _ => isFalse (fun e => by cases e)

instance {α : Type} [DecidableEq α] : DecidableEq (Run α) := fun x y =>
  match x, y with
  | ⟨r1, a⟩, ⟨r2, b⟩ =>
    if h : r1 = r2 ∧ a = b then isTrue (by rw [h.1, h.2])
    else isFalse (fun e => h (by cases e; exact ⟨rfl, rfl⟩))

/-! ## Lemmas on `Run` -/

theorem res_pure {α : Type} (a : α) : (pure a : Run α).res = Except.ok a := rfl

theorem reads_pure {α : Type} (a : α) : (pure a : Run α).reads = [] := rfl

theorem res_bind {α β : Type} (x : Run α) (f : α → Run β) :
    (x >>= f).res = match x.res with
      | Except.ok a => (f a).res
      | Except.error e => Except.error e := by
  show (Run.andThen x f).res = _
  unfold Run.andThen
  cases x.res <;> rfl

theorem bind_ok {α β : Type} (x : Run α) (f : α → Run β) (b : β) :
    (x >>= f).res = Except.ok b ↔ ∃ a, x.res = Except.ok a ∧ (f a).res = Except.ok b := by
  rw [res_bind]
  cases h : x.res with
  | ok a => simp
  | error e => simp

theorem getIdx_ok {α : Type} (s : Slice) (l : List α) (i : Int) (x : α) :
    (getIdx s l i).res = Except.ok x ↔ 0 ≤ i ∧ l[i.toNat]? = some x := by
  unfold getIdx
  by_cases h : i < 0
  · simp [h, Run.fail]
  · simp only [h, if_false]
    cases hl : l[i.toNat]? with
    | none => simp [Run.fail]
    | some y => simp [Run.ret, not_lt.mp h]

theorem getIdx_nat {α : Type} (s : Slice) (l : List α) (a : Nat) (x : α) (h : l[a]? = some x) :
    getIdx s l (a : Int) = pure x := by
  unfold getIdx
  have : ¬ ((a : Int) < 0) := by omega
  simp [this, h]
  rfl

theorem setIdx_ok {α : Type} (s : Slice) (l : List α) (i : Int) (v : α) (l1 : List α) :
    (setIdx s l i v).res = Except.ok l1 ↔ 0 ≤ i ∧ i.toNat < l.length ∧ l1 = l.set i.toNat v := by
  unfold setIdx
  by_cases h : i < 0
  · simp [h, Run.fail]
  · by_cases h2 : i.toNat < l.length
    · simp [h, h2, Run.ret, not_lt.mp h, eq_comm]
    · simp [h, h2, Run.fail]

theorem readM_ok {F : Type} (m : Model F) (i : Int) (x : F) :
    (readM m i).res = Except.ok x ↔ 0 ≤ i ∧ m.M[i.toNat]? = some x := by
  unfold readM
  by_cases h : i < 0
  · simp [h]
  · simp only [h, if_false]
    cases hl : m.M[i.toNat]? with
    | none => simp
    | some y => simp [not_lt.mp h]

theorem pure_bind_run {α β : Type} (a : α) (f : α → Run β) : (pure a >>= f) = f a := by
  show Run.andThen (Run.ret a) f = f a
  simp [Run.andThen, Run.ret]

/-! ## Word lookup -/

theorem lookupScan_res {F : Type} (m : Model F) (v : String) :
    ∀ n b, b + n = m.vocab.length →
      (lookupScan m v n b).res = Except.ok (b + (m.vocab.drop b).indexOf v) := by
  intro n
  induction n with
  | zero =>
    intro b hb
    have : m.vocab.drop b = [] := List.drop_eq_nil_of_le (by omega)
    simp [lookupScan, this, res_pure]
  | succ n ih =>
    intro b hb
    have hlt : b < m.vocab.length := by omega
    have hd : m.vocab.drop b = m.vocab[b] :: m.vocab.drop (b + 1) := List.drop_eq_getElem_cons hlt
    have hg : m.vocab[b]? = some m.vocab[b] := List.getElem?_eq_getElem hlt
    rw [lookupScan, getIdx_nat _ _ _ _ hg, pure_bind_run, hd]
    by_cases hw : m.vocab[b] = v
    · simp [hw, res_pure]
    · rw [if_neg hw, ih (b + 1) (by omega), List.indexOf_cons_ne _ hw]
      congr 1
      omega

theorem lookupWord_res {F : Type} (m : Model F) (hv : (m.vocab.length : Int) = m.words)
    (v : String) : (lookupWord m v).res = Except.ok (firstIndex m.vocab v) := by
  have hn : 0 + m.words.toNat = m.vocab.length := by omega
  have h := lookupScan_res m v m.words.toNat 0 hn
  unfold lookupWord
  rw [res_bind, h]
  simp only [List.drop_zero, Nat.zero_add, res_pure, firstIndex]
  by_cases hmem : v ∈ m.vocab
  · have hlt := List.indexOf_lt_length.mpr hmem
    have : ¬ ((List.indexOf v m.vocab : Int) = m.words) := by omega
    simp [hmem, this]
  · have he := List.indexOf_eq_length.mpr hmem
    have : ((List.indexOf v m.vocab : Int) = m.words) := by omega
    simp [hmem, hv]

theorem lookupAll_res {F : Type} (m : Model F) (hv : (m.vocab.length : Int) = m.words)
    (st : List String) : (lookupAll m st).res = Except.ok (st.map (firstIndex m.vocab)) := by
  induction st with
  | nil => rfl
  | cons v st ih =>
    rw [lookupAll, res_bind, lookupWord_res m hv v]
    simp only
    rw [res_bind, ih]
    rfl

theorem firstIndex_mem (vocab : List String) (w : String) (h : w ∈ vocab) :
    ∃ i : Nat, firstIndex vocab w = (i : Int) ∧ vocab[i]? = some w ∧
      ∀ j, j < i → vocab[j]? ≠ some w := by
  refine ⟨vocab.indexOf w, by simp [firstIndex, h], ?_, ?_⟩
  · rw [← List.get?_eq_getElem?]
    exact List.indexOf_get? h
  intro j hj hc
  have hjl : j < vocab.length := lt_trans hj (List.indexOf_lt_length.mpr h)
  have h1 := List.not_of_lt_findIdx (show j < vocab.findIdx (fun x => x == w) from hj)
  rw [List.getElem?_eq_getElem hjl] at hc
  simp only [Option.some.injEq] at hc
  simp [hc] at h1

theorem firstIndex_not_mem (vocab : List String) (w : String) (h : w ∉ vocab) :
    firstIndex vocab w = -1 := by
  simp [firstIndex, h]

/-! ## The insertion of one row -/

theorem shiftDown_length {S : Type} [Zero S] (a : Nat) :
    ∀ (k : Nat) (best : List (wordDistance S)), (shiftDown a k best).length = best.length := by
  intro k
  induction k with
  | zero => intro best; rfl
  | succ k ih => intro best; rw [shiftDown, ih]; simp

theorem shiftDown_getElem? {S : Type} [Zero S] (a : Nat) :
    ∀ (k : Nat) (best : List (wordDistance S)), a + k < best.length → ∀ i : Nat,
      (shiftDown a k best)[i]? = if a < i ∧ i ≤ a + k then best[i - 1]? else best[i]? := by
  intro k
  induction k with
  | zero =>
    intro best _ i
    have : ¬ (a < i ∧ i ≤ a + 0) := by omega
    rw [if_neg this]
    rfl
  | succ k ih =>
    intro best h i
    have hx : best.getD (a + k) emptySlot = best[a + k] := by
      rw [List.getD_eq_getElem?_getD, List.getElem?_eq_getElem (by omega)]
      rfl
    rw [shiftDown, ih _ (by simp; omega) i, hx]
    by_cases h1 : a < i ∧ i ≤ a + k
    · have h2 : a < i ∧ i ≤ a + (k + 1) := by omega
      rw [if_pos h1, if_pos h2, List.getElem?_set]
      have : ¬ (a + k + 1 = i - 1) := by omega
      simp [this]
    · rw [if_neg h1, List.getElem?_set]
      by_cases h3 : a + k + 1 = i
      · have h2 : a < i ∧ i ≤ a + (k + 1) := by omega
        have h4 : a + k + 1 < best.length := by omega
        have h5 : i - 1 = a + k := by omega
        rw [if_pos h3, if_pos h2, if_pos h4, h5, List.getElem?_eq_getElem (by omega)]
      · have h2 : ¬ (a < i ∧ i ≤ a + (k + 1)) := by omega
        rw [if_neg h3, if_neg h2]

theorem shiftDown_set {S : Type} [Zero S] (a : Nat) (best : List (wordDistance S))
    (e : wordDistance S) (ha : a < best.length) :
    (shiftDown a (best.length - 1 - a) best).set a e =
      best.take a ++ e :: (best.drop a).dropLast := by
  apply List.ext_getElem?
  intro i
  rw [List.getElem?_set, shiftDown_length, shiftDown_getElem? a _ best (by omega) i]
  rw [List.dropLast_eq_take, List.getElem?_append]
  simp only [List.length_take, List.length_drop]
  by_cases h1 : i < a
  · have h2 : ¬ (a = i) := by omega
    have h3 : ¬ (a < i ∧ i ≤ a + (best.length - 1 - a)) := by omega
    have h4 : i < min a best.length := by omega
    rw [if_neg h2, if_neg h3, if_pos h4, List.getElem?_take_of_lt h1]
  · have h4 : ¬ (i < min a best.length) := by omega
    have h5 : min a best.length = a := by omega
    rw [if_neg h4, h5]
    by_cases h2 : a = i
    · subst h2
      simp [ha]
    · have h6 : i - a = (i - a - 1) + 1 := by omega
      rw [if_neg h2, h6, List.getElem?_cons_succ]
      by_cases h7 : i < best.length
      · have h3 : a < i ∧ i ≤ a + (best.length - 1 - a) := by omega
        rw [if_pos h3, List.getElem?_take_of_lt (by omega), List.getElem?_drop]
        congr 1
        omega
      · have h3 : ¬ (a < i ∧ i ≤ a + (best.length - 1 - a)) := by omega
        rw [if_neg h3, List.getElem?_eq_none (by omega), List.getElem?_eq_none]
        simp
        omega

theorem getIdx_nat_ok {α : Type} (s : Slice) (l : List α) (a : Nat) (x : α) :
    (getIdx s l (a : Int)).res = Except.ok x ↔ l[a]? = some x := by
  rw [getIdx_ok]
  simp

theorem take_insert_cut {α : Type} (p q : List α) (e : α) (hq : q ≠ []) :
    (p ++ e :: q).take (p.length + q.length) = p ++ e :: q.dropLast := by
  rw [List.take_append]
  congr 1
  cases q with
  | nil => exact absurd rfl hq
  | cons x xs =>
    rw [List.dropLast_eq_take]
    simp

theorem insertBest_ok {F S : Type} [LinearOrder S] [Zero S] (m : Model F) (c : Nat)
    (dist : Option S) :
    ∀ (n a : Nat) (best best1 : List (wordDistance S)), a + n = N → best.length = N →
      (insertBest m c dist n a best).res = Except.ok best1 →
      best1 = (best.take a ++ insertPure ⟨m.vocab.getD c "", dist⟩ (best.drop a)).take N := by
  intro n
  induction n with
  | zero =>
    intro a best best1 han hlen h
    have ha : a = best.length := by omega
    have hb : best1 = best := by
      simp only [insertBest, res_pure, Except.ok.injEq] at h
      exact h.symm
    subst ha
    rw [hb, List.drop_length, List.take_length, insertPure, ← hlen, List.take_left]
  | succ n ih =>
    intro a best best1 han hlen h
    have ha : a < best.length := by omega
    rw [insertBest, bind_ok] at h
    obtain ⟨cur, hcur, h⟩ := h
    rw [getIdx_nat_ok] at hcur
    have hcur2 : best[a] = cur := by
      rw [List.getElem?_eq_getElem ha] at hcur
      exact Option.some.inj hcur
    have hd : best.drop a = cur :: best.drop (a + 1) := by
      rw [List.drop_eq_getElem_cons ha, hcur2]
    by_cases hgt : gt64 dist cur.Distance = true
    · rw [if_pos hgt, bind_ok] at h
      obtain ⟨w, hw, h⟩ := h
      rw [getIdx_nat_ok] at hw
      rw [setIdx_ok] at h
      obtain ⟨_, _, h⟩ := h
      have hN : N - 1 - a = best.length - 1 - a := by omega
      have hwd : m.vocab.getD c "" = w := by
        rw [List.getD_eq_getElem?_getD, hw]
        rfl
      rw [h, Int.toNat_ofNat, hN, shiftDown_set a best _ ha, hd, hwd]
      have hins : insertPure ⟨w, dist⟩ (cur :: best.drop (a + 1)) =
          ⟨w, dist⟩ :: (cur :: best.drop (a + 1)) := by
        simp [insertPure, hgt]
      rw [hins]
      have hl : N = (best.take a).length + (cur :: best.drop (a + 1)).length := by
        rw [← hd]
        simp
        omega
      rw [hl, take_insert_cut _ _ _ (by simp)]
    · rw [if_neg hgt] at h
      have h2 := ih (a + 1) best best1 (by omega) hlen h
      rw [h2, hd]
      have hins : insertPure ⟨m.vocab.getD c "", dist⟩ (cur :: best.drop (a + 1)) =
          cur :: insertPure ⟨m.vocab.getD c "", dist⟩ (best.drop (a + 1)) := by
        simp [insertPure, hgt]
      have ht : best.take (a + 1) = best.take a ++ [cur] := by
        rw [List.take_succ, hcur]
        rfl
      rw [hins, ht, List.append_assoc]
      rfl

theorem insertBest_step {F S : Type} [LinearOrder S] [Zero S] (m : Model F) (c : Nat)
    (dist : Option S) (best best1 : List (wordDistance S)) (hlen : best.length = N)
    (h : (insertBest m c dist N 0 best).res = Except.ok best1) :
    best1 = stepPure ⟨m.vocab.getD c "", dist⟩ best := by
  have := insertBest_ok m c dist N 0 best best1 (by omega) hlen h
  simpa [stepPure] using this

/-! ## The loop over the rows -/

theorem insertPure_length {S : Type} [LinearOrder S] (e : wordDistance S) :
    ∀ l : List (wordDistance S), (insertPure e l).length = l.length + 1 := by
  intro l
  induction l with
  | nil => rfl
  | cons x xs ih =>
    unfold insertPure
    split
    · simp
    · simp [ih]

theorem stepPure_length {S : Type} [LinearOrder S] (e : wordDistance S)
    (best : List (wordDistance S)) (h : best.length = N) : (stepPure e best).length = N := by
  simp [stepPure, insertPure_length, h]

theorem foldRows_length {S : Type} [LinearOrder S] (entry : Nat → wordDistance S) :
    ∀ (cands : List Nat) (best : List (wordDistance S)), best.length = N →
      (foldRows entry cands best).length = N := by
  intro cands
  induction cands with
  | nil => intro best h; exact h
  | cons c cs ih =>
    intro best h
    exact ih _ (stepPure_length _ _ h)

theorem queryFlag_aux (c : Int) : ∀ (bi : List Int) (a0 : Int),
    bi.foldl (fun a b => if b = c then 1 else a) a0 = 1 ↔ (a0 = 1 ∨ c ∈ bi) := by
  intro bi
  induction bi with
  | nil => intro a0; simp
  | cons b bs ih =>
    intro a0
    rw [List.foldl_cons, ih]
    by_cases hb : b = c
    · simp [hb]
    · have hc : ¬ c = b := fun h => hb h.symm
      simp [hb, hc]

theorem queryFlag_eq_one (bi : List Int) (c : Int) : queryFlag bi c = 1 ↔ c ∈ bi := by
  unfold queryFlag
  rw [queryFlag_aux]
  simp

theorem analogySkip_true (bi : List Int) (c : Int)
    (h : (analogySkip bi c).res = Except.ok true) : c ∈ bi := by
  unfold analogySkip at h
  rw [bind_ok] at h
  obtain ⟨b0, h0, h⟩ := h
  rw [getIdx_ok] at h0
  by_cases hc0 : c = b0
  · rw [hc0]
    exact List.getElem?_mem h0.2
  · rw [if_neg hc0, bind_ok] at h
    obtain ⟨b1, h1, h⟩ := h
    rw [getIdx_ok] at h1
    by_cases hc1 : c = b1
    · rw [hc1]
      exact List.getElem?_mem h1.2
    · rw [if_neg hc1, bind_ok] at h
      obtain ⟨b2, h2, h⟩ := h
      rw [getIdx_ok] at h2
      simp only [res_pure, Except.ok.injEq, decide_eq_true_eq] at h
      rw [h]
      exact List.getElem?_mem h2.2

theorem score_of_dot {F S : Type} [Zero S] (ops : FloatOps F S) (m : Model F) (vec : List F)
    (c : Nat) (d : Option S) (h : (dot ops m vec c m.size.toNat 0 zero64).res = Except.ok d) :
    score ops m vec c = d := by
  unfold score
  rw [h]

theorem rankLoop_ok {F S : Type} [LinearOrder S] [Zero S] (ops : FloatOps F S) (m : Model F)
    (bi : List Int) (purpose : String) (vec : List F) :
    ∀ (n c : Nat) (best r : List (wordDistance S)), best.length = N →
      (rankLoop ops m bi purpose vec n c best).res = Except.ok r →
      r = foldRows (entryOf ops m vec)
        ((List.range' c n).filter (fun k => decide ((k : Int) ∉ bi))) best := by
  intro n
  induction n with
  | zero =>
    intro c best r _ h
    simp only [rankLoop, res_pure, Except.ok.injEq] at h
    simp [foldRows, h]
  | succ n ih =>
    intro c best r hlen h
    rw [rankLoop, bind_ok] at h
    obtain ⟨skip, hskip, h⟩ := h
    have hr : List.range' c (n + 1) = c :: List.range' (c + 1) n := by
      simp [List.range']
    rw [hr]
    by_cases hin : (c : Int) ∈ bi
    · have hf : List.filter (fun k : Nat => decide ((k : Int) ∉ bi)) (c :: List.range' (c + 1) n) =
          List.filter (fun k : Nat => decide ((k : Int) ∉ bi)) (List.range' (c + 1) n) := by
        simp [List.filter_cons, hin]
      rw [hf]
      by_cases hs : skip = true
      · rw [if_pos hs] at h
        exact ih (c + 1) best r hlen h
      · rw [if_neg hs, if_pos ((queryFlag_eq_one bi c).mpr hin)] at h
        exact ih (c + 1) best r hlen h
    · have hs : ¬ (skip = true) := by
        intro hs
        rw [hs] at hskip
        by_cases hp : purpose = analogy
        · rw [if_pos hp] at hskip
          exact hin (analogySkip_true bi c hskip)
        · rw [if_neg hp] at hskip
          simp [res_pure] at hskip
      have hq : ¬ (queryFlag bi c = 1) := fun hq => hin ((queryFlag_eq_one bi c).mp hq)
      rw [if_neg hs, if_neg hq, bind_ok] at h
      obtain ⟨dist, hdist, h⟩ := h
      rw [bind_ok] at h
      obtain ⟨best1, hbest1, h⟩ := h
      have hb := insertBest_step m c dist best best1 hlen hbest1
      have he : (⟨m.vocab.getD c "", dist⟩ : wordDistance S) = entryOf ops m vec c := by
        rw [entryOf, score_of_dot ops m vec c dist hdist]
      rw [he] at hb
      have hlen1 : best1.length = N := by
        rw [hb]
        exact stepPure_length _ _ hlen
      have hf : List.filter (fun k : Nat => decide ((k : Int) ∉ bi)) (c :: List.range' (c + 1) n) =
          c :: List.filter (fun k : Nat => decide ((k : Int) ∉ bi)) (List.range' (c + 1) n) := by
        simp [List.filter_cons, hin]
      rw [hf, ih (c + 1) best1 r hlen1 h, hb]
      rfl

theorem distances_ok {F S : Type} [LinearOrder S] [Zero S] (ops : FloatOps F S) (m : Model F)
    (st : List String) (purpose : String) (r : List (wordDistance S))
    (h : (distances ops m st purpose).res = Except.ok r) :
    ∃ bi vec, (lookupAll m st).res = Except.ok bi ∧
      (initVector ops m bi st purpose).res = Except.ok vec ∧
      r = foldRows (entryOf ops m (normalize ops vec)) (candidates m bi)
        (List.replicate N emptySlot) := by
  unfold distances at h
  rw [bind_ok] at h
  obtain ⟨bi, hbi, h⟩ := h
  rw [bind_ok] at h
  obtain ⟨vec, hvec, h⟩ := h
  refine ⟨bi, vec, hbi, hvec, ?_⟩
  have := rankLoop_ok ops m bi purpose (normalize ops vec) m.words.toNat 0
    (List.replicate N emptySlot) r (by simp) h
  rw [this, candidates, List.range_eq_range']

/-! ## Order of the result -/

theorem gt64_some {S : Type} [LinearOrder S] (a b : Option S) (h : gt64 a b = true) :
    ∃ x y, a = some x ∧ b = some y ∧ y < x := by
  cases a with
  | none => simp [gt64] at h
  | some x =>
    cases b with
    | none => simp [gt64] at h
    | some y => exact ⟨x, y, rfl, rfl, by simpa [gt64] using h⟩

theorem ge64_of_not_gt {S : Type} [LinearOrder S] (a b : Option S) (ha : a ≠ none)
    (hb : b ≠ none) (h : ¬ gt64 a b = true) : ge64 b a = true := by
  cases a with
  | none => exact absurd rfl ha
  | some x =>
    cases b with
    | none => exact absurd rfl hb
    | some y =>
      simp only [gt64, decide_eq_true_eq, not_lt] at h
      simpa [ge64] using h

theorem ge64_of_gt_of_ge {S : Type} [LinearOrder S] (a b c : Option S) (h1 : gt64 a b = true)
    (h2 : ge64 b c = true) : ge64 a c = true := by
  obtain ⟨x, y, rfl, rfl, hxy⟩ := gt64_some a b h1
  cases c with
  | none => simp [ge64] at h2
  | some z =>
    simp only [ge64, decide_eq_true_eq] at h2 ⊢
    exact le_trans h2 (le_of_lt hxy)

theorem ge64_of_gt {S : Type} [LinearOrder S] (a b : Option S) (h1 : gt64 a b = true) :
    ge64 a b = true := by
  obtain ⟨x, y, rfl, rfl, hxy⟩ := gt64_some a b h1
  simpa [ge64] using le_of_lt hxy

theorem mem_take_insertPure {S : Type} [LinearOrder S] (e y : wordDistance S) :
    ∀ l : List (wordDistance S), y ∈ (insertPure e l).take l.length →
      y ∈ l ∨ (y = e ∧ ∃ x ∈ l, gt64 e.Distance x.Distance = true) := by
  intro l
  induction l with
  | nil => intro h; simp at h
  | cons x xs ih =>
    intro h
    by_cases hgt : gt64 e.Distance x.Distance = true
    · have hstep : (insertPure e (x :: xs)).take (x :: xs).length =
          e :: (x :: xs).take xs.length := by
        simp [insertPure, hgt]
      rw [hstep] at h
      rcases List.mem_cons.mp h with h3 | h3
      · exact Or.inr ⟨h3, x, List.mem_cons_self _ _, hgt⟩
      · exact Or.inl (List.mem_of_mem_take h3)
    · have hstep : (insertPure e (x :: xs)).take (x :: xs).length =
          x :: (insertPure e xs).take xs.length := by
        simp [insertPure, hgt]
      rw [hstep] at h
      rcases List.mem_cons.mp h with h3 | h3
      · exact Or.inl (by rw [h3]; exact List.mem_cons_self _ _)
      · rcases ih h3 with h1 | ⟨h1, z, hz, hgz⟩
        · exact Or.inl (List.mem_cons_of_mem _ h1)
        · exact Or.inr ⟨h1, z, List.mem_cons_of_mem _ hz, hgz⟩

theorem desc_take_insertPure {S : Type} [LinearOrder S] (e : wordDistance S) :
    ∀ l : List (wordDistance S), Desc l → (∀ x ∈ l, x.Distance ≠ none) →
      Desc ((insertPure e l).take l.length) := by
  intro l
  induction l with
  | nil => intro _ _; simp [Desc]
  | cons x xs ih =>
    intro hd hn
    have hd2 : (∀ y ∈ xs, ge64 x.Distance y.Distance = true) ∧ Desc xs := List.pairwise_cons.mp hd
    by_cases hgt : gt64 e.Distance x.Distance = true
    · have hstep : (insertPure e (x :: xs)).take (x :: xs).length =
          e :: (x :: xs).take xs.length := by
        simp [insertPure, hgt]
      rw [hstep]
      apply List.pairwise_cons.mpr
      constructor
      · intro y hy
        have hy2 : y ∈ x :: xs := List.mem_of_mem_take hy
        rcases List.mem_cons.mp hy2 with h | h
        · rw [h]
          exact ge64_of_gt _ _ hgt
        · exact ge64_of_gt_of_ge _ _ _ hgt (hd2.1 y h)
      · exact List.Pairwise.sublist (List.take_sublist _ _) hd
    · have hstep : (insertPure e (x :: xs)).take (x :: xs).length =
          x :: (insertPure e xs).take xs.length := by
        simp [insertPure, hgt]
      rw [hstep]
      apply List.pairwise_cons.mpr
      constructor
      · intro y hy
        rcases mem_take_insertPure e y xs hy with h | ⟨h, z, _, hgz⟩
        · exact hd2.1 y h
        · obtain ⟨d, _, hed, _, _⟩ := gt64_some _ _ hgz
          rw [h]
          exact ge64_of_not_gt _ _ (by rw [hed]; simp) (hn x (List.mem_cons_self _ _)) hgt
      · exact ih hd2.2 (fun z hz => hn z (List.mem_cons_of_mem _ hz))

theorem stepPure_inv {S : Type} [LinearOrder S] (e : wordDistance S)
    (best : List (wordDistance S)) (hlen : best.length = N) (hd : Desc best)
    (hn : ∀ x ∈ best, x.Distance ≠ none) :
    Desc (stepPure e best) ∧ ∀ x ∈ stepPure e best, x.Distance ≠ none := by
  have hs : stepPure e best = (insertPure e best).take best.length := by rw [stepPure, hlen]
  rw [hs]
  refine ⟨desc_take_insertPure e best hd hn, ?_⟩
  intro x hx
  rcases mem_take_insertPure e x best hx with h | ⟨h, z, _, hgz⟩
  · exact hn x h
  · obtain ⟨d, _, hed, _, _⟩ := gt64_some _ _ hgz
    rw [h, hed]
    simp

theorem foldRows_inv {S : Type} [LinearOrder S] (entry : Nat → wordDistance S) :
    ∀ (cands : List Nat) (best : List (wordDistance S)), best.length = N → Desc best →
      (∀ x ∈ best, x.Distance ≠ none) →
      Desc (foldRows entry cands best) ∧ ∀ x ∈ foldRows entry cands best, x.Distance ≠ none := by
  intro cands
  induction cands with
  | nil => intro best _ hd hn; exact ⟨hd, hn⟩
  | cons c cs ih =>
    intro best hlen hd hn
    have h := stepPure_inv (entry c) best hlen hd hn
    exact ih _ (stepPure_length _ _ hlen) h.1 h.2

theorem desc_replicate {S : Type} [LinearOrder S] [Zero S] (n : Nat) :
    Desc (List.replicate n (emptySlot : wordDistance S)) := by
  unfold Desc
  rw [List.pairwise_replicate]
  right
  simp [emptySlot, zero64, ge64]

/-! ## The result as a ranking -/

theorem insertPure_of_no_gt {S : Type} [LinearOrder S] (e : wordDistance S) :
    ∀ l : List (wordDistance S), (∀ x ∈ l, ¬ gt64 e.Distance x.Distance = true) →
      insertPure e l = l ++ [e] := by
  intro l
  induction l with
  | nil => intro _; rfl
  | cons x xs ih =>
    intro h
    have hx := h x (List.mem_cons_self _ _)
    rw [insertPure, if_neg hx, ih (fun z hz => h z (List.mem_cons_of_mem _ hz))]
    rfl

theorem stepPure_skip {S : Type} [LinearOrder S] (e : wordDistance S)
    (best : List (wordDistance S)) (hlen : best.length = N)
    (h : ∀ x ∈ best, ¬ gt64 e.Distance x.Distance = true) : stepPure e best = best := by
  rw [stepPure, insertPure_of_no_gt e best h, ← hlen, List.take_left]

theorem take_insertPure_take {S : Type} [LinearOrder S] (e : wordDistance S) :
    ∀ (l : List (wordDistance S)) (n : Nat),
      (insertPure e (l.take n)).take n = (insertPure e l).take n := by
  intro l
  induction l with
  | nil => intro n; simp
  | cons x xs ih =>
    intro n
    cases n with
    | zero => simp
    | succ k =>
      rw [List.take_succ_cons]
      by_cases hgt : gt64 e.Distance x.Distance = true
      · rw [insertPure, if_pos hgt, insertPure, if_pos hgt, List.take_succ_cons,
          List.take_succ_cons]
        congr 1
        rw [← List.take_succ_cons, List.take_take]
        simp
      · rw [insertPure, if_neg hgt, insertPure, if_neg hgt, List.take_succ_cons,
          List.take_succ_cons, ih k]

theorem insertPure_append {S : Type} [LinearOrder S] (e z : wordDistance S)
    (zs : List (wordDistance S)) (hgt : gt64 e.Distance z.Distance = true) :
    ∀ l : List (wordDistance S), insertPure e (l ++ z :: zs) = insertPure e l ++ z :: zs := by
  intro l
  induction l with
  | nil => simp [insertPure, hgt]
  | cons x xs ih =>
    by_cases hx : gt64 e.Distance x.Distance = true
    · simp [insertPure, hx]
    · simp [insertPure, hx, ih]

theorem insertPure_map {S : Type} [LinearOrder S] (word : Nat → String) (p : Nat × S) :
    ∀ L : List (Nat × S), (∀ q ∈ L, q.1 < p.1) →
      insertPure (rowEntry word p) (L.map (rowEntry word)) =
        (L.orderedInsert rankBefore p).map (rowEntry word) := by
  intro L
  induction L with
  | nil => intro _; rfl
  | cons q qs ih =>
    intro h
    have hq := h q (List.mem_cons_self _ _)
    have hiff : rankBefore p q ↔ q.2 < p.2 := by
      unfold rankBefore
      constructor
      · rintro (h1 | ⟨_, h2⟩)
        · exact h1
        · omega
      · exact fun h1 => Or.inl h1
    rw [List.map_cons, insertPure, List.orderedInsert]
    by_cases hlt : q.2 < p.2
    · rw [if_pos (hiff.mpr hlt), if_pos (by simp [rowEntry, gt64, hlt])]
      rfl
    · rw [if_neg (fun h1 => hlt (hiff.mp h1)), if_neg (by simp [rowEntry, gt64, hlt]),
        ih (fun t ht => h t (List.mem_cons_of_mem _ ht))]
      rfl

theorem positives_cons_pos {S : Type} [LinearOrder S] [Zero S] (sc : Nat → Option S) (c : Nat)
    (cs : List Nat) (d : S) (h : sc c = some d) (hd : 0 < d) :
    positives sc (c :: cs) = (c, d) :: positives sc cs := by
  simp [positives, List.filterMap_cons, h, hd]

theorem positives_cons_neg {S : Type} [LinearOrder S] [Zero S] (sc : Nat → Option S) (c : Nat)
    (cs : List Nat) (h : ¬ gt64 (sc c) zero64 = true) :
    positives sc (c :: cs) = positives sc cs := by
  cases hs : sc c with
  | none => simp [positives, List.filterMap_cons, hs]
  | some d =>
    have : ¬ (0 < d) := by simpa [hs, gt64, zero64] using h
    simp [positives, List.filterMap_cons, hs, this]

theorem mem_positives {S : Type} [LinearOrder S] [Zero S] (sc : Nat → Option S)
    (cands : List Nat) (p : Nat × S) :
    p ∈ positives sc cands ↔ p.1 ∈ cands ∧ sc p.1 = some p.2 ∧ 0 < p.2 := by
  unfold positives
  rw [List.mem_filterMap]
  constructor
  · rintro ⟨c, hc, h⟩
    cases hs : sc c with
    | none => simp [hs] at h
    | some d =>
      by_cases hd : 0 < d
      · simp only [hs, hd, if_true, Option.some.injEq] at h
        rw [← h]
        exact ⟨hc, hs, hd⟩
      · simp [hs, hd] at h
  · rintro ⟨hc, hs, hd⟩
    exact ⟨p.1, hc, by simp [hs, hd]⟩

theorem replicate_N_cons {S : Type} [Zero S] :
    List.replicate N (emptySlot : wordDistance S) =
      emptySlot :: List.replicate (N - 1) emptySlot := rfl

theorem foldRows_rank {S : Type} [LinearOrder S] [Zero S] (sc : Nat → Option S)
    (word : Nat → String) :
    ∀ (cands : List Nat) (L : List (Nat × S)), cands.Pairwise (fun a b => a < b) →
      (∀ q ∈ L, ∀ c ∈ cands, q.1 < c) → (∀ q ∈ L, 0 < q.2) →
      foldRows (fun c => ⟨word c, sc c⟩) cands
          ((L.map (rowEntry word) ++ List.replicate N emptySlot).take N) =
        (((positives sc cands).foldl
          (fun (L : List (Nat × S)) p => L.orderedInsert rankBefore p) L).map
          (rowEntry word) ++ List.replicate N emptySlot).take N := by
  intro cands
  induction cands with
  | nil => intro L _ _ _; rfl
  | cons c cs ih =>
    intro L hp hL hpos
    have hp2 := List.pairwise_cons.mp hp
    have hlen : ((L.map (rowEntry word) ++ List.replicate N (emptySlot : wordDistance S)).take
        N).length = N := by
      simp
    rw [foldRows, List.foldl_cons]
    by_cases hgt : gt64 (sc c) zero64 = true
    · obtain ⟨d, z, hd, hz, hlt⟩ := gt64_some _ _ hgt
      have hz0 : z = 0 := by
        simp only [zero64, Option.some.injEq] at hz
        exact hz.symm
      rw [hz0] at hlt
      rw [positives_cons_pos sc c cs d hd hlt, List.foldl_cons]
      have hstep : stepPure (⟨word c, sc c⟩ : wordDistance S)
          ((L.map (rowEntry word) ++ List.replicate N emptySlot).take N) =
          ((L.orderedInsert rankBefore (c, d)).map (rowEntry word) ++
            List.replicate N emptySlot).take N := by
        have he : (⟨word c, sc c⟩ : wordDistance S) = rowEntry word (c, d) := by
          rw [hd]
          rfl
        rw [stepPure, take_insertPure_take, replicate_N_cons,
          insertPure_append _ _ _ (by rw [hd]; simpa [emptySlot, zero64, gt64] using hlt),
          he, insertPure_map word (c, d) L (fun q hq => hL q hq c (List.mem_cons_self _ _))]
      rw [hstep]
      apply ih _ hp2.2
      · intro q hq k hk
        rcases (List.mem_orderedInsert rankBefore).mp hq with h | h
        · rw [h]
          exact hp2.1 k hk
        · exact hL q h k (List.mem_cons_of_mem _ hk)
      · intro q hq
        rcases (List.mem_orderedInsert rankBefore).mp hq with h | h
        · rw [h]
          exact hlt
        · exact hpos q h
    · rw [positives_cons_neg sc c cs hgt]
      have hskip : stepPure (⟨word c, sc c⟩ : wordDistance S)
          ((L.map (rowEntry word) ++ List.replicate N emptySlot).take N) =
          (L.map (rowEntry word) ++ List.replicate N emptySlot).take N := by
        apply stepPure_skip _ _ hlen
        intro x hx hgx
        have hx2 := List.mem_of_mem_take hx
        obtain ⟨d, y, hd, hy, hlt⟩ := gt64_some _ _ hgx
        apply hgt
        simp only at hd
        rw [hd]
        have h0 : (0 : S) ≤ y := by
          rcases List.mem_append.mp hx2 with h | h
          · obtain ⟨q, hq, hqe⟩ := List.mem_map.mp h
            rw [← hqe] at hy
            simp only [rowEntry, Option.some.injEq] at hy
            rw [← hy]
            exact le_of_lt (hpos q hq)
          · rw [List.eq_of_mem_replicate h] at hy
            simp only [emptySlot, zero64, Option.some.injEq] at hy
            rw [← hy]
        simpa [zero64, gt64] using lt_of_le_of_lt h0 hlt
      rw [hskip]
      exact ih L hp2.2 (fun q hq k hk => hL q hq k (List.mem_cons_of_mem _ hk)) hpos

theorem foldl_orderedInsert_sorted {S : Type} [LinearOrder S] :
    ∀ (ps L : List (Nat × S)), L.Sorted rankBefore →
      (ps.foldl (fun L p => L.orderedInsert rankBefore p) L).Sorted rankBefore := by
  intro ps
  induction ps with
  | nil => intro L h; exact h
  | cons p ps ih => intro L h; exact ih _ (List.Sorted.orderedInsert p L h)

theorem foldl_orderedInsert_perm {S : Type} [LinearOrder S] :
    ∀ (ps L : List (Nat × S)),
      List.Perm (ps.foldl (fun L p => L.orderedInsert rankBefore p) L) (ps ++ L) := by
  intro ps
  induction ps with
  | nil => intro L; exact List.Perm.refl _
  | cons p ps ih =>
    intro L
    refine (ih _).trans ?_
    refine (List.Perm.append_left ps (List.perm_orderedInsert rankBefore p L)).trans ?_
    exact List.perm_middle

theorem foldl_orderedInsert_eq {S : Type} [LinearOrder S] (ps : List (Nat × S)) :
    ps.foldl (fun L p => L.orderedInsert rankBefore p) [] = ps.insertionSort rankBefore := by
  apply List.eq_of_perm_of_sorted (r := rankBefore)
  · refine (foldl_orderedInsert_perm ps []).trans ?_
    rw [List.append_nil]
    exact (List.perm_insertionSort rankBefore ps).symm
  · exact foldl_orderedInsert_sorted ps [] List.sorted_nil
  · exact List.sorted_insertionSort rankBefore ps

theorem candidates_sorted {F : Type} (m : Model F) (bi : List Int) :
    (candidates m bi).Pairwise (fun a b => a < b) :=
  List.Pairwise.filter _ (List.pairwise_lt_range _)

theorem take_pad {S : Type} [Zero S] (word : Nat → String) (T : List (Nat × S)) :
    (T.map (rowEntry word) ++ List.replicate N (emptySlot : wordDistance S)).take N =
      (T.take N).map (rowEntry word) ++ List.replicate (N - (T.take N).length) emptySlot := by
  rw [List.take_append_eq_append_take, List.map_take, List.take_replicate]
  congr 2
  simp only [List.length_map, List.length_take]
  omega

theorem foldRows_reference {S : Type} [LinearOrder S] [Zero S] (sc : Nat → Option S)
    (word : Nat → String) (cands : List Nat) (hp : cands.Pairwise (fun a b => a < b)) :
    foldRows (fun c => ⟨word c, sc c⟩) cands (List.replicate N emptySlot) =
      topKReference sc word cands := by
  have h := foldRows_rank sc word cands [] hp (by simp) (by simp)
  simp only [List.map_nil, List.nil_append, List.take_replicate, min_self] at h
  rw [h, foldl_orderedInsert_eq, take_pad]
  rfl

theorem distances_reference {F S : Type} [LinearOrder S] [Zero S] (ops : FloatOps F S)
    (m : Model F) (st : List String) (purpose : String) (r : List (wordDistance S))
    (h : (distances ops m st purpose).res = Except.ok r) :
    ∃ bi vec, (lookupAll m st).res = Except.ok bi ∧
      (initVector ops m bi st purpose).res = Except.ok vec ∧
      r = topKReference (score ops m (normalize ops vec)) (fun c => m.vocab.getD c "")
        (candidates m bi) := by
  obtain ⟨bi, vec, hbi, hvec, hr⟩ := distances_ok ops m st purpose r h
  refine ⟨bi, vec, hbi, hvec, ?_⟩
  rw [hr, ← foldRows_reference _ _ _ (candidates_sorted m bi)]
  rfl

theorem topRows_length_le {S : Type} [LinearOrder S] [Zero S] (sc : Nat → Option S)
    (cands : List Nat) : (topRows sc cands).length ≤ N := by
  simp [topRows, List.length_take]

theorem topKReference_length {S : Type} [LinearOrder S] [Zero S] (sc : Nat → Option S)
    (word : Nat → String) (cands : List Nat) : (topKReference sc word cands).length = N := by
  have := topRows_length_le sc cands
  simp only [topKReference, List.length_append, List.length_map, List.length_replicate]
  omega

theorem mem_topRows {S : Type} [LinearOrder S] [Zero S] (sc : Nat → Option S)
    (cands : List Nat) (p : Nat × S) (h : p ∈ topRows sc cands) :
    p.1 ∈ cands ∧ sc p.1 = some p.2 ∧ 0 < p.2 := by
  have h1 := List.mem_of_mem_take h
  rw [List.mem_insertionSort] at h1
  exact (mem_positives sc cands p).mp h1

theorem positives_nil_of_no_gt {S : Type} [LinearOrder S] [Zero S] (sc : Nat → Option S)
    (cands : List Nat) (h : ∀ c ∈ cands, ¬ gt64 (sc c) zero64 = true) :
    positives sc cands = [] := by
  apply List.eq_nil_iff_forall_not_mem.mpr
  intro p hp
  obtain ⟨hc, hs, hd⟩ := (mem_positives sc cands p).mp hp
  apply h p.1 hc
  rw [hs]
  simpa [zero64, gt64] using hd

/-! ## Exclusion of the query rows -/

theorem entries_of_topRows {F S : Type} [LinearOrder S] [Zero S] (ops : FloatOps F S)
    (m : Model F) (vec : List F) (cands : List Nat) :
    (topRows (score ops m vec) cands).map (rowEntry (fun c => m.vocab.getD c "")) =
      ((topRows (score ops m vec) cands).map Prod.fst).map (entryOf ops m vec) := by
  rw [List.map_map]
  apply List.map_congr_left
  intro p hp
  have h := (mem_topRows _ _ p hp).2.1
  simp only [Function.comp, entryOf, rowEntry, h]

theorem mem_candidates {F : Type} (m : Model F) (bi : List Int) (c : Nat) :
    c ∈ candidates m bi ↔ (c : Int) < m.words ∧ (c : Int) ∉ bi := by
  simp only [candidates, List.mem_filter, List.mem_range, decide_eq_true_eq]
  constructor
  · rintro ⟨h1, h2⟩
    exact ⟨by omega, h2⟩
  · rintro ⟨h1, h2⟩
    exact ⟨by omega, h2⟩

/-! ## Ties -/

theorem topKReference_getElem? {S : Type} [LinearOrder S] [Zero S] (sc : Nat → Option S)
    (word : Nat → String) (cands : List Nat) (k : Nat) (p : Nat × S)
    (h : (topRows sc cands)[k]? = some p) :
    (topKReference sc word cands)[k]? = some (rowEntry word p) := by
  have hk : k < (topRows sc cands).length := (List.getElem?_eq_some_iff.mp h).1
  rw [topKReference, List.getElem?_append_left (by simpa using hk), List.getElem?_map, h]
  rfl

theorem tie_order {S : Type} [LinearOrder S] [Zero S] (sc : Nat → Option S) (cands : List Nat)
    (i j : Nat) (d : S) (hij : i < j) (hi : i ∈ cands) (hsi : sc i = some d) (kj : Nat)
    (h : (topRows sc cands)[kj]? = some (j, d)) :
    ∃ ki, ki < kj ∧ (topRows sc cands)[ki]? = some (i, d) := by
  unfold topRows at h ⊢
  rw [List.getElem?_take] at h
  by_cases hkj : kj < N
  · rw [if_pos hkj] at h
    have hjm : (j, d) ∈ (positives sc cands).insertionSort rankBefore := List.getElem?_mem h
    rw [List.mem_insertionSort] at hjm
    have hd : 0 < d := ((mem_positives sc cands (j, d)).mp hjm).2.2
    have him : (i, d) ∈ (positives sc cands).insertionSort rankBefore := by
      rw [List.mem_insertionSort]
      exact (mem_positives sc cands (i, d)).mpr ⟨hi, hsi, hd⟩
    obtain ⟨ki, hki⟩ := List.mem_iff_getElem?.mp him
    have hsorted := List.sorted_insertionSort rankBefore (positives sc cands)
    have hlt : ki < kj := by
      by_contra hge
      rcases Nat.lt_or_ge kj ki with h1 | h1
      · obtain ⟨hb1, he1⟩ := List.getElem?_eq_some_iff.mp h
        obtain ⟨hb2, he2⟩ := List.getElem?_eq_some_iff.mp hki
        have hrel := (List.pairwise_iff_getElem.mp hsorted) kj ki hb1 hb2 h1
        rw [he1, he2] at hrel
        rcases hrel with h2 | ⟨_, h2⟩
        · exact lt_irrefl _ h2
        · simp only at h2
          omega
      · have hk : ki = kj := by omega
        rw [hk, h] at hki
        have := (Prod.ext_iff.mp (Option.some.inj hki)).1
        simp only at this
        omega
    refine ⟨ki, hlt, ?_⟩
    rw [List.getElem?_take, if_pos (by omega)]
    exact hki
  · rw [if_neg hkj] at h
    exact absurd h (by simp)

theorem topRows_all {S : Type} [LinearOrder S] [Zero S] (sc : Nat → Option S) (cands : List Nat)
    (hlen : (positives sc cands).length ≤ N) (c : Nat) (d : S) (hc : c ∈ cands)
    (hs : sc c = some d) (hd : 0 < d) : (c, d) ∈ topRows sc cands := by
  rw [topRows, List.take_of_length_le (by rw [List.length_insertionSort]; exact hlen),
    List.mem_insertionSort]
  exact (mem_positives sc cands (c, d)).mpr ⟨hc, hs, hd⟩

/-! ## Composition of the query vector -/

theorem res_bind_of_ok {α β : Type} (x : Run α) (f : α → Run β) (a : α)
    (h : x.res = Except.ok a) : (x >>= f).res = (f a).res := by
  rw [res_bind, h]

theorem index_in_range {F : Type} (m : Model F) (hM : (m.M.length : Int) = m.words * m.size)
    (i : Int) (hi0 : 0 ≤ i) (hi : i < m.words) (a : Nat) (ha : (a : Int) < m.size) :
    0 ≤ (a : Int) + i * m.size ∧ ((a : Int) + i * m.size).toNat < m.M.length := by
  have hs : 0 ≤ m.size := by omega
  have h1 : 0 ≤ i * m.size := mul_nonneg hi0 hs
  have h2 : (i + 1) * m.size ≤ m.words * m.size :=
    mul_le_mul_of_nonneg_right (by omega) hs
  have h3 : (i + 1) * m.size = i * m.size + m.size := by ring
  constructor
  · omega
  · omega

theorem readM_row {F S : Type} (ops : FloatOps F S) (m : Model F)
    (hM : (m.M.length : Int) = m.words * m.size) (i : Int) (hi0 : 0 ≤ i) (hi : i < m.words)
    (a : Nat) (ha : (a : Int) < m.size) :
    (readM m ((a : Int) + i * m.size)).res = Except.ok (rowAt ops m i a) ∧
    m.M[((a : Int) + i * m.size).toNat]? = some (rowAt ops m i a) := by
  have hidx := index_in_range m hM i hi0 hi a ha
  have hget : m.M[((a : Int) + i * m.size).toNat]? = some (rowAt ops m i a) := by
    rw [rowAt, List.getD_eq_getElem?_getD, List.getElem?_eq_getElem hidx.2]
    rfl
  exact ⟨(readM_ok m _ _).mpr ⟨hidx.1, hget⟩, hget⟩

theorem addRow_ok {F S : Type} (ops : FloatOps F S) (m : Model F)
    (hM : (m.M.length : Int) = m.words * m.size) (i : Int) (hi0 : 0 ≤ i) (hi : i < m.words) :
    ∀ (n a : Nat) (vec : List F), a + n ≤ vec.length → a + n ≤ m.size.toNat →
      ∃ vec1, (addRow ops m i n a vec).res = Except.ok vec1 ∧ vec1.length = vec.length ∧
        ∀ k : Nat, vec1[k]? = if a ≤ k ∧ k < a + n then
          (vec[k]?).map (fun x => ops.add32 x (rowAt ops m i k)) else vec[k]? := by
  intro n
  induction n with
  | zero =>
    intro a vec _ _
    refine ⟨vec, rfl, rfl, ?_⟩
    intro k
    have : ¬ (a ≤ k ∧ k < a + 0) := by omega
    rw [if_neg this]
  | succ n ih =>
    intro a vec hlen hsz
    have ha : a < vec.length := by omega
    have hread := (readM_row ops m hM i hi0 hi a (by omega)).1
    rw [addRow, getIdx_nat _ _ _ _ (List.getElem?_eq_getElem ha), pure_bind_run,
      res_bind_of_ok _ _ _ hread]
    obtain ⟨vec1, h1, h2, h3⟩ := ih (a + 1) (vec.set a (ops.add32 vec[a] (rowAt ops m i a)))
      (by rw [List.length_set]; omega) (by omega)
    refine ⟨vec1, h1, by rw [h2, List.length_set], ?_⟩
    intro k
    rw [h3 k, List.getElem?_set]
    by_cases hk : a = k
    · subst hk
      have c1 : ¬ (a + 1 ≤ a ∧ a < a + 1 + n) := by omega
      have c2 : a ≤ a ∧ a < a + (n + 1) := by omega
      rw [if_neg c1, if_pos c2, if_pos rfl, if_pos ha, List.getElem?_eq_getElem ha]
      rfl
    · by_cases c1 : a + 1 ≤ k ∧ k < a + 1 + n
      · have c2 : a ≤ k ∧ k < a + (n + 1) := by omega
        rw [if_pos c1, if_pos c2, if_neg hk]
      · have c2 : ¬ (a ≤ k ∧ k < a + (n + 1)) := by omega
        rw [if_neg c1, if_neg c2, if_neg hk]

theorem sumRows_ok {F S : Type} (ops : FloatOps F S) (m : Model F)
    (hM : (m.M.length : Int) = m.words * m.size) (bi : List Int)
    (hbi : ∀ i ∈ bi, i = -1 ∨ (0 ≤ i ∧ i < m.words)) :
    ∀ (bs : List Nat) (vec : List F), (∀ b ∈ bs, b < bi.length) → m.size ≤ vec.length →
      ∃ vec1, (sumRows ops m bi bs vec).res = Except.ok vec1 ∧ vec1.length = vec.length ∧
        ∀ k : Nat, vec1[k]? = if (k : Int) < m.size then
          (vec[k]?).map (fun x => ((bs.map (fun b => bi.getD b (-1))).filter
            (fun i => decide (i ≠ -1))).foldl
              (fun acc i => ops.add32 acc (rowAt ops m i k)) x) else vec[k]? := by
  intro bs
  induction bs with
  | nil =>
    intro vec _ _
    refine ⟨vec, rfl, rfl, ?_⟩
    intro k
    simp
  | cons b bs ih =>
    intro vec hb hsz
    have hbl : b < bi.length := hb b (List.mem_cons_self _ _)
    have hget : bi[b]? = some bi[b] := List.getElem?_eq_getElem hbl
    have hgd : bi.getD b (-1) = bi[b] := by
      rw [List.getD_eq_getElem?_getD, hget]
      rfl
    rw [sumRows, getIdx_nat _ _ _ _ hget, pure_bind_run]
    by_cases hneg : bi[b] = -1
    · rw [if_pos hneg]
      obtain ⟨vec1, h1, h2, h3⟩ := ih vec (fun c hc => hb c (List.mem_cons_of_mem _ hc)) hsz
      refine ⟨vec1, h1, h2, ?_⟩
      intro k
      rw [h3 k, List.map_cons, hgd, List.filter_cons_of_neg (by simp [hneg])]
    · rw [if_neg hneg]
      have hres : 0 ≤ bi[b] ∧ bi[b] < m.words := by
        rcases hbi bi[b] (List.getElem_mem hbl) with h | h
        · exact absurd h hneg
        · exact h
      obtain ⟨vec1, h1, h2, h3⟩ := addRow_ok ops m hM bi[b] hres.1 hres.2 m.size.toNat 0 vec
        (by omega) (by omega)
      obtain ⟨vec2, g1, g2, g3⟩ := ih vec1 (fun c hc => hb c (List.mem_cons_of_mem _ hc))
        (by rw [h2]; exact hsz)
      rw [res_bind_of_ok _ _ _ h1]
      refine ⟨vec2, g1, by rw [g2, h2], ?_⟩
      intro k
      rw [g3 k, h3 k, List.map_cons, hgd, List.filter_cons_of_pos (by simp [hneg])]
      by_cases hk : (k : Int) < m.size
      · have c1 : 0 ≤ k ∧ k < 0 + m.size.toNat := by omega
        rw [if_pos hk, if_pos hk, if_pos c1, Option.map_map]
        rfl
      · have c1 : ¬ (0 ≤ k ∧ k < 0 + m.size.toNat) := by omega
        rw [if_neg hk, if_neg hk, if_neg c1]

theorem firstIndex_range (vocab : List String) (w : String) :
    firstIndex vocab w = -1 ∨ (0 ≤ firstIndex vocab w ∧ firstIndex vocab w < vocab.length) := by
  unfold firstIndex
  by_cases h : w ∈ vocab
  · right
    have := List.indexOf_lt_length.mpr h
    simp only [h, if_true]
    omega
  · left
    simp [h]

theorem map_getD_range (bi : List Int) :
    (List.range bi.length).map (fun b => bi.getD b (-1)) = bi := by
  apply List.ext_getElem?
  intro k
  rw [List.getElem?_map]
  by_cases hk : k < bi.length
  · rw [List.getElem?_range hk, List.getElem?_eq_getElem hk]
    simp [List.getElem?_eq_getElem hk]
  · rw [List.getElem?_eq_none (by simpa using hk), List.getElem?_eq_none (not_lt.mp hk)]
    rfl

theorem firstIndex_nonneg (vocab : List String) (w : String) (h : w ∈ vocab) :
    firstIndex vocab w ≠ -1 ∧ 0 ≤ firstIndex vocab w ∧ firstIndex vocab w < vocab.length := by
  have := List.indexOf_lt_length.mpr h
  simp only [firstIndex, h, if_true]
  omega

theorem analogyLoop_ok {F S : Type} (ops : FloatOps F S) (m : Model F)
    (hM : (m.M.length : Int) = m.words * m.size) (i1 i2 i3 : Int)
    (h1 : 0 ≤ i1 ∧ i1 < m.words) (h2 : 0 ≤ i2 ∧ i2 < m.words) (h3 : 0 ≤ i3 ∧ i3 < m.words) :
    ∀ (n a : Nat) (vec : List F), a + n ≤ vec.length → a + n ≤ m.size.toNat →
      ∃ vec1, (analogyLoop ops m [i1, i2, i3] n a vec).res = Except.ok vec1 ∧
        vec1.length = vec.length ∧
        ∀ k : Nat, vec1[k]? = if a ≤ k ∧ k < a + n then
          some (ops.add32 (ops.sub32 (rowAt ops m i2 k) (rowAt ops m i1 k)) (rowAt ops m i3 k))
          else vec[k]? := by
  intro n
  induction n with
  | zero =>
    intro a vec _ _
    refine ⟨vec, rfl, rfl, ?_⟩
    intro k
    have : ¬ (a ≤ k ∧ k < a + 0) := by omega
    rw [if_neg this]
  | succ n ih =>
    intro a vec hlen hsz
    have ha : a < vec.length := by omega
    have hr1 := (readM_row ops m hM i1 h1.1 h1.2 a (by omega)).1
    have hr2 := (readM_row ops m hM i2 h2.1 h2.2 a (by omega)).1
    have hr3 := (readM_row ops m hM i3 h3.1 h3.2 a (by omega)).1
    have hb1 : getIdx Slice.bi [i1, i2, i3] 1 = pure i2 := getIdx_nat _ _ 1 _ rfl
    have hb0 : getIdx Slice.bi [i1, i2, i3] 0 = pure i1 := getIdx_nat _ _ 0 _ rfl
    have hb2 : getIdx Slice.bi [i1, i2, i3] 2 = pure i3 := getIdx_nat _ _ 2 _ rfl
    have hset : (setIdx Slice.vec vec (a : Int)
        (ops.add32 (ops.sub32 (rowAt ops m i2 a) (rowAt ops m i1 a)) (rowAt ops m i3 a))).res =
        Except.ok (vec.set a
          (ops.add32 (ops.sub32 (rowAt ops m i2 a) (rowAt ops m i1 a)) (rowAt ops m i3 a))) := by
      rw [setIdx_ok]
      simp [ha]
    rw [analogyLoop, hb1, pure_bind_run, res_bind_of_ok _ _ _ hr2, hb0, pure_bind_run,
      res_bind_of_ok _ _ _ hr1, hb2, pure_bind_run, res_bind_of_ok _ _ _ hr3,
      res_bind_of_ok _ _ _ hset]
    obtain ⟨vec1, g1, g2, g3⟩ := ih (a + 1) (vec.set a
      (ops.add32 (ops.sub32 (rowAt ops m i2 a) (rowAt ops m i1 a)) (rowAt ops m i3 a)))
      (by rw [List.length_set]; omega) (by omega)
    refine ⟨vec1, g1, by rw [g2, List.length_set], ?_⟩
    intro k
    rw [g3 k, List.getElem?_set]
    by_cases hk : a = k
    · subst hk
      have c1 : ¬ (a + 1 ≤ a ∧ a < a + 1 + n) := by omega
      have c2 : a ≤ a ∧ a < a + (n + 1) := by omega
      rw [if_neg c1, if_pos c2, if_pos rfl, if_pos ha]
    · by_cases c1 : a + 1 ≤ k ∧ k < a + 1 + n
      · have c2 : a ≤ k ∧ k < a + (n + 1) := by omega
        rw [if_pos c1, if_pos c2]
      · have c2 : ¬ (a ≤ k ∧ k < a + (n + 1)) := by omega
        rw [if_neg c1, if_neg c2, if_neg hk]

theorem initVector_distance_sum {F S : Type} (ops : FloatOps F S) (m : Model F)
    (hv : (m.vocab.length : Int) = m.words) (hM : (m.M.length : Int) = m.words * m.size)
    (hs : m.size ≤ (maxSize : Int)) (st : List String) :
    ∃ vec, (initVector ops m (st.map (firstIndex m.vocab)) st distance).res = Except.ok vec ∧
      vec.length = maxSize ∧
      (∀ a : Nat, (a : Int) < m.size →
        vec[a]? = some (sumAt ops m a ((st.map (firstIndex m.vocab)).filter
          (fun i => decide (i ≠ -1))))) ∧
      (∀ a : Nat, m.size ≤ (a : Int) → a < maxSize → vec[a]? = some ops.zero32) := by
  have hbi : ∀ i ∈ st.map (firstIndex m.vocab), i = -1 ∨ (0 ≤ i ∧ i < m.words) := by
    intro i hi
    obtain ⟨w, _, hw⟩ := List.mem_map.mp hi
    rw [← hw, ← hv]
    exact firstIndex_range m.vocab w
  have hlen : (st.map (firstIndex m.vocab)).length = st.length := List.length_map _ _
  obtain ⟨vec, h1, h2, h3⟩ := sumRows_ok ops m hM (st.map (firstIndex m.vocab)) hbi
    (List.range st.length) (List.replicate maxSize ops.zero32)
    (by intro b hb; rw [hlen]; exact List.mem_range.mp hb)
    (by rw [List.length_replicate]; exact hs)
  rw [← hlen, map_getD_range] at h3
  rw [List.length_replicate] at h2
  refine ⟨vec, ?_, h2, ?_, ?_⟩
  · unfold initVector
    rw [if_pos rfl]
    exact h1
  · intro a ha
    have hlt : a < maxSize := by omega
    rw [h3 a, if_pos ha, List.getElem?_replicate, if_pos hlt]
    rfl
  · intro a ha hlt
    rw [h3 a, if_neg (by omega), List.getElem?_replicate, if_pos hlt]

theorem initVector_distance_none {F S : Type} (ops : FloatOps F S) (m : Model F)
    (hv : (m.vocab.length : Int) = m.words) (hM : (m.M.length : Int) = m.words * m.size)
    (hs : m.size ≤ (maxSize : Int)) (st : List String) (hnone : ∀ w ∈ st, w ∉ m.vocab) :
    (initVector ops m (st.map (firstIndex m.vocab)) st distance).res =
      Except.ok (List.replicate maxSize ops.zero32) := by
  obtain ⟨vec, h1, h2, hcomp, hzero⟩ := initVector_distance_sum ops m hv hM hs st
  have hf : (st.map (firstIndex m.vocab)).filter (fun i => decide (i ≠ -1)) = [] := by
    apply List.filter_eq_nil_iff.mpr
    intro i hi
    obtain ⟨w, hw, hwi⟩ := List.mem_map.mp hi
    rw [← hwi, firstIndex_not_mem m.vocab w (hnone w hw)]
    simp
  have hvec : vec = List.replicate maxSize ops.zero32 := by
    apply List.ext_getElem?
    intro k
    by_cases hk : k < maxSize
    · rw [List.getElem?_replicate, if_pos hk]
      by_cases hks : (k : Int) < m.size
      · rw [hcomp k hks, hf]
        rfl
      · exact hzero k (by omega) hk
    · rw [List.getElem?_eq_none (by omega), List.getElem?_eq_none (by simp; omega)]
  rw [h1, hvec]

/-! ## Runs without panic -/

theorem dot_returns {F S : Type} (ops : FloatOps F S) (m : Model F)
    (hM : (m.M.length : Int) = m.words * m.size) (vec : List F) (c : Nat)
    (hc : (c : Int) < m.words) (hvec : m.size ≤ (vec.length : Int)) :
    ∀ (n a : Nat) (dist : Option S), a + n ≤ m.size.toNat →
      ∃ d, (dot ops m vec c n a dist).res = Except.ok d := by
  intro n
  induction n with
  | zero => intro a dist _; exact ⟨dist, rfl⟩
  | succ n ih =>
    intro a dist hsz
    have ha : a < vec.length := by omega
    have hread := (readM_row ops m hM c (by omega) hc a (by omega)).1
    rw [dot, getIdx_nat _ _ _ _ (List.getElem?_eq_getElem ha), pure_bind_run,
      res_bind_of_ok _ _ _ hread]
    exact ih (a + 1) _ (by omega)

theorem insertBest_returns {F S : Type} [LinearOrder S] [Zero S] (m : Model F) (c : Nat)
    (hc : c < m.vocab.length) (dist : Option S) :
    ∀ (n a : Nat) (best : List (wordDistance S)), a + n = N → best.length = N →
      ∃ best1, (insertBest m c dist n a best).res = Except.ok best1 := by
  intro n
  induction n with
  | zero => intro a best _ _; exact ⟨best, rfl⟩
  | succ n ih =>
    intro a best han hlen
    have ha : a < best.length := by omega
    rw [insertBest, getIdx_nat _ _ _ _ (List.getElem?_eq_getElem ha), pure_bind_run]
    by_cases hgt : gt64 dist best[a].Distance = true
    · rw [if_pos hgt, getIdx_nat _ _ _ _ (List.getElem?_eq_getElem hc), pure_bind_run]
      refine ⟨_, (setIdx_ok _ _ _ _ _).mpr ⟨by omega, ?_, rfl⟩⟩
      rw [shiftDown_length]
      simpa using ha
    · rw [if_neg hgt]
      exact ih (a + 1) best (by omega) hlen

theorem analogySkip_returns (bi : List Int) (c : Int) (h : 3 ≤ bi.length) :
    ∃ b, (analogySkip bi c).res = Except.ok b := by
  have h0 : bi[0]? = some bi[0] := List.getElem?_eq_getElem (by omega)
  have h1 : bi[1]? = some bi[1] := List.getElem?_eq_getElem (by omega)
  have h2 : bi[2]? = some bi[2] := List.getElem?_eq_getElem (by omega)
  have g0 : getIdx Slice.bi bi 0 = pure bi[0] := getIdx_nat _ _ 0 _ h0
  have g1 : getIdx Slice.bi bi 1 = pure bi[1] := getIdx_nat _ _ 1 _ h1
  have g2 : getIdx Slice.bi bi 2 = pure bi[2] := getIdx_nat _ _ 2 _ h2
  rw [analogySkip, g0, pure_bind_run]
  by_cases c0 : c = bi[0]
  · rw [if_pos c0]
    exact ⟨true, rfl⟩
  · rw [if_neg c0, g1, pure_bind_run]
    by_cases c1 : c = bi[1]
    · rw [if_pos c1]
      exact ⟨true, rfl⟩
    · rw [if_neg c1, g2, pure_bind_run]
      exact ⟨_, rfl⟩

theorem rankLoop_returns {F S : Type} [LinearOrder S] [Zero S] (ops : FloatOps F S)
    (m : Model F) (hv : (m.vocab.length : Int) = m.words)
    (hM : (m.M.length : Int) = m.words * m.size) (bi : List Int) (purpose : String)
    (hp : purpose = analogy → 3 ≤ bi.length) (vec : List F)
    (hvec : m.size ≤ (vec.length : Int)) :
    ∀ (n c : Nat) (best : List (wordDistance S)), c + n ≤ m.words.toNat → best.length = N →
      ∃ r, (rankLoop ops m bi purpose vec n c best).res = Except.ok r := by
  intro n
  induction n with
  | zero => intro c best _ _; exact ⟨best, rfl⟩
  | succ n ih =>
    intro c best hcn hlen
    have hskip : ∃ b, (if purpose = analogy then analogySkip bi (c : Int)
        else (pure false : Run Bool)).res = Except.ok b := by
      by_cases h : purpose = analogy
      · rw [if_pos h]
        exact analogySkip_returns bi c (hp h)
      · rw [if_neg h]
        exact ⟨false, rfl⟩
    obtain ⟨b, hb⟩ := hskip
    rw [rankLoop, res_bind_of_ok _ _ _ hb]
    by_cases hb1 : b = true
    · rw [if_pos hb1]
      exact ih (c + 1) best (by omega) hlen
    · rw [if_neg hb1]
      by_cases hq : queryFlag bi (c : Int) = 1
      · rw [if_pos hq]
        exact ih (c + 1) best (by omega) hlen
      · rw [if_neg hq]
        obtain ⟨d, hd⟩ := dot_returns ops m hM vec c (by omega) hvec m.size.toNat 0
          (zero64 : Option S) (by omega)
        obtain ⟨best1, h1⟩ := insertBest_returns m c (by omega) d N 0 best (by omega) hlen
        rw [res_bind_of_ok _ _ _ hd, res_bind_of_ok _ _ _ h1]
        have hl : best1.length = N := by
          rw [insertBest_step m c d best best1 hlen h1]
          exact stepPure_length _ _ hlen
        exact ih (c + 1) best1 (by omega) hl

theorem initVector_returns {F S : Type} (ops : FloatOps F S) (m : Model F)
    (hv : (m.vocab.length : Int) = m.words) (hM : (m.M.length : Int) = m.words * m.size)
    (hs : m.size ≤ (maxSize : Int)) (st : List String) (purpose : String)
    (hp : purpose = analogy →
      ∃ w1 w2 w3, st = [w1, w2, w3] ∧ w1 ∈ m.vocab ∧ w2 ∈ m.vocab ∧ w3 ∈ m.vocab) :
    ∃ vec, (initVector ops m (st.map (firstIndex m.vocab)) st purpose).res = Except.ok vec ∧
      vec.length = maxSize := by
  unfold initVector
  by_cases hd : purpose = distance
  · rw [if_pos hd]
    have hbi : ∀ i ∈ st.map (firstIndex m.vocab), i = -1 ∨ (0 ≤ i ∧ i < m.words) := by
      intro i hi
      obtain ⟨w, _, hw⟩ := List.mem_map.mp hi
      rw [← hw, ← hv]
      exact firstIndex_range m.vocab w
    obtain ⟨vec, h1, h2, _⟩ := sumRows_ok ops m hM (st.map (firstIndex m.vocab)) hbi
      (List.range st.length) (List.replicate maxSize ops.zero32)
      (by intro b hb; rw [List.length_map]; exact List.mem_range.mp hb)
      (by rw [List.length_replicate]; exact hs)
    exact ⟨vec, h1, by rw [h2, List.length_replicate]⟩
  · rw [if_neg hd]
    by_cases ha : purpose = analogy
    · rw [if_pos ha]
      obtain ⟨w1, w2, w3, hst, hw1, hw2, hw3⟩ := hp ha
      have r1 := firstIndex_nonneg m.vocab w1 hw1
      have r2 := firstIndex_nonneg m.vocab w2 hw2
      have r3 := firstIndex_nonneg m.vocab w3 hw3
      rw [hv] at r1 r2 r3
      obtain ⟨vec, k1, k2, _⟩ := analogyLoop_ok ops m hM _ _ _ r1.2 r2.2 r3.2 m.size.toNat 0
        (List.replicate maxSize ops.zero32) (by rw [List.length_replicate]; omega) (by omega)
      rw [hst]
      exact ⟨vec, k1, by rw [k2, List.length_replicate]⟩
    · rw [if_neg ha]
      exact ⟨_, rfl, List.length_replicate _ _⟩

theorem distances_returns {F S : Type} [LinearOrder S] [Zero S] (ops : FloatOps F S)
    (m : Model F) (hv : (m.vocab.length : Int) = m.words)
    (hM : (m.M.length : Int) = m.words * m.size) (hs : m.size ≤ (maxSize : Int))
    (st : List String) (purpose : String)
    (hp : purpose = analogy →
      ∃ w1 w2 w3, st = [w1, w2, w3] ∧ w1 ∈ m.vocab ∧ w2 ∈ m.vocab ∧ w3 ∈ m.vocab) :
    ∃ r, (distances ops m st purpose).res = Except.ok r := by
  obtain ⟨vec, h1, h2⟩ := initVector_returns ops m hv hM hs st purpose hp
  have hlen : 3 ≤ (st.map (firstIndex m.vocab)).length ∨ purpose ≠ analogy := by
    by_cases ha : purpose = analogy
    · obtain ⟨w1, w2, w3, hst, _⟩ := hp ha
      left
      rw [hst]
      simp
    · exact Or.inr ha
  rw [distances, res_bind_of_ok _ _ _ (lookupAll_res m hv st), res_bind_of_ok _ _ _ h1]
  apply rankLoop_returns ops m hv hM _ purpose
    (fun ha => hlen.resolve_right (fun h => h ha)) _
    (by simp only [normalize, List.length_map]; rw [h2]; exact hs) m.words.toNat 0 _ (by omega)
    (by simp)


/-! ## Loading -/

/-- C1: whenever `Model.distances` returns, the list it returns is in
non-increasing order of `Distance`: for all ranks `i < j`, the comparison
`result[i].Distance >= result[j].Distance` holds. -/
theorem distances_sorted {F S : Type} [LinearOrder S] [Zero S] (ops : FloatOps F S)
    (m : Model F) (st : List String) (purpose : String) (r : List (wordDistance S))
    (h : (distances ops m st purpose).res = Except.ok r) :
    ∀ (i j : Nat) (x y : wordDistance S), i < j → r[i]? = some x → r[j]? = some y →
      ge64 x.Distance y.Distance = true := by
  obtain ⟨bi, vec, _, _, hr⟩ := distances_ok ops m st purpose r h
  have hinv := foldRows_inv (entryOf ops m (normalize ops vec)) (candidates m bi)
    (List.replicate N emptySlot) (by simp) (desc_replicate N)
    (by intro x hx; rw [List.eq_of_mem_replicate hx]; simp [emptySlot, zero64])
  rw [← hr] at hinv
  intro i j x y hij hx hy
  have hp : r.Pairwise (fun x y => ge64 x.Distance y.Distance = true) := hinv.1
  rw [List.pairwise_iff_getElem] at hp
  obtain ⟨hi, hxe⟩ := List.getElem?_eq_some_iff.mp hx
  obtain ⟨hj, hye⟩ := List.getElem?_eq_some_iff.mp hy
  rw [← hxe, ← hye]
  exact hp i j hi hj hij

/-- Witness of C1: the query `a` in distance mode on the sample model. -/
theorem distances_sorted_witness :
    (distances intOps sampleModel ["a"] distance).res =
      Except.ok ([⟨"c", some 4⟩, ⟨"b", some 3⟩] ++ List.replicate 38 emptySlot) ∧
    ∀ (i j : Nat) (x y : wordDistance Int), i < j →
      ([⟨"c", some 4⟩, ⟨"b", some 3⟩] ++ List.replicate 38 emptySlot)[i]? = some x →
      ([⟨"c", some 4⟩, ⟨"b", some 3⟩] ++ List.replicate 38 emptySlot)[j]? = some y →
      ge64 x.Distance y.Distance = true :=
  ⟨by decide!, distances_sorted intOps sampleModel ["a"] distance _ (by decide!)⟩

/-- C2, amended: whenever `Model.distances` returns (either mode), the list has
exactly `N = 40` entries: the entries of at most 40 rows, none of which has an
index in `bi` (the indices of the query words), followed by empty slots.  So,
when `len(vocab) = words` and the vocabulary words are unique, no resolved query
word other than the empty string appears in the result. -/
theorem distances_excludes_query {F S : Type} [LinearOrder S] [Zero S] (ops : FloatOps F S)
    (m : Model F) (st : List String) (purpose : String) (r : List (wordDistance S))
    (h : (distances ops m st purpose).res = Except.ok r) :
    r.length = N ∧
    ∃ (bi : List Int) (vec : List F) (rows : List Nat),
      (lookupAll m st).res = Except.ok bi ∧
      (initVector ops m bi st purpose).res = Except.ok vec ∧
      rows.length ≤ N ∧
      r = rows.map (entryOf ops m (normalize ops vec)) ++
        List.replicate (N - rows.length) emptySlot ∧
      (∀ c ∈ rows, (c : Int) ∉ bi ∧ (c : Int) < m.words) ∧
      ((m.vocab.length : Int) = m.words → m.vocab.Nodup →
        ∀ w ∈ st, w ∈ m.vocab → w ≠ "" → ∀ e ∈ r, e.Word ≠ w) := by
  obtain ⟨bi, vec, hbi, hvec, hr⟩ := distances_reference ops m st purpose r h
  have hrows : r = ((topRows (score ops m (normalize ops vec)) (candidates m bi)).map
      Prod.fst).map (entryOf ops m (normalize ops vec)) ++
      List.replicate (N - ((topRows (score ops m (normalize ops vec)) (candidates m bi)).map
        Prod.fst).length) emptySlot := by
    rw [hr, topKReference, entries_of_topRows, List.length_map]
  have hex : ∀ c ∈ (topRows (score ops m (normalize ops vec)) (candidates m bi)).map Prod.fst,
      (c : Int) ∉ bi ∧ (c : Int) < m.words := by
    intro c hc
    obtain ⟨p, hp, hpc⟩ := List.mem_map.mp hc
    have h1 := (mem_candidates m bi p.1).mp (mem_topRows _ _ p hp).1
    rw [← hpc]
    exact ⟨h1.2, h1.1⟩
  refine ⟨by rw [hr]; exact topKReference_length _ _ _, bi, vec, _, hbi, hvec, ?_, hrows, hex, ?_⟩
  · rw [List.length_map]
    exact topRows_length_le _ _
  · intro hv hnd w hw hwv hne e he hew
    have hbi2 : bi = st.map (firstIndex m.vocab) := by
      have h2 := lookupAll_res m hv st
      rw [hbi] at h2
      exact Except.ok.inj h2
    rw [hrows] at he
    rcases List.mem_append.mp he with h1 | h1
    · obtain ⟨c, hc, hce⟩ := List.mem_map.mp h1
      have hc2 := hex c hc
      have hlt : c < m.vocab.length := by omega
      have hword : m.vocab[c] = w := by
        rw [← hew, ← hce]
        simp [entryOf, List.getD_eq_getElem?_getD, List.getElem?_eq_getElem hlt]
      have hidx : List.indexOf w m.vocab = c := by
        rw [← hword]
        exact List.indexOf_getElem hnd c hlt
      apply hc2.1
      rw [hbi2]
      apply List.mem_map.mpr
      exact ⟨w, hw, by simp [firstIndex, hwv, hidx]⟩
    · rw [List.eq_of_mem_replicate h1] at hew
      exact hne hew.symm

/-- Witness of C2 (amended): the query `a` in distance mode on the sample model. -/
theorem distances_excludes_query_witness :
    (distances intOps sampleModel ["a"] distance).res = Except.ok sampleResult ∧
    sampleResult.length = N ∧
    ∃ (bi : List Int) (vec : List Int) (rows : List Nat),
      (lookupAll sampleModel ["a"]).res = Except.ok bi ∧
      (initVector intOps sampleModel bi ["a"] distance).res = Except.ok vec ∧
      rows.length ≤ N ∧
      sampleResult = rows.map (entryOf intOps sampleModel (normalize intOps vec)) ++
        List.replicate (N - rows.length) emptySlot ∧
      (∀ c ∈ rows, (c : Int) ∉ bi ∧ (c : Int) < sampleModel.words) ∧
      ((sampleModel.vocab.length : Int) = sampleModel.words → sampleModel.vocab.Nodup →
        ∀ w ∈ ["a"], w ∈ sampleModel.vocab → w ≠ "" → ∀ e ∈ sampleResult, e.Word ≠ w) :=
  ⟨by decide!,
    distances_excludes_query intOps sampleModel ["a"] distance sampleResult (by decide!)⟩

/-- C2, counterexample: the vocabulary `["", "a"]` has unique words and the query
word `""` is resolved (row 0), yet the result of the distance query holds 39
entries whose `Word` is the query word `""`: the empty slots. -/
theorem distances_query_word_counterexample :
    emptyWordModel.vocab.Nodup ∧ "" ∈ emptyWordModel.vocab ∧
    (lookupAll emptyWordModel [""]).res = Except.ok [0] ∧
    (distances intOps emptyWordModel [""] distance).res =
      Except.ok ([⟨"a", some 1⟩] ++ List.replicate 39 emptySlot) ∧
    ∃ e ∈ ([⟨"a", some 1⟩] ++ List.replicate 39 emptySlot : List (wordDistance Int)),
      e.Word = "" :=
  ⟨by decide, by decide, by decide!, by decide!, emptySlot, by decide, rfl⟩

/-- C3: with `len(vocab) = words`, the lookup loop of `Model.distances` returns,
and the index it stores in `bi[k]` for the query word `w = st[k]` is the smallest
`i` with `vocab[i] = w` when `w` occurs in the vocabulary, and -1 when it does not. -/
theorem lookup_first_occurrence {F : Type} (m : Model F)
    (hv : (m.vocab.length : Int) = m.words) (st : List String) :
    ∃ bi, (lookupAll m st).res = Except.ok bi ∧ bi.length = st.length ∧
      ∀ (k : Nat) (w : String), st[k]? = some w →
        (w ∈ m.vocab → ∃ i : Nat, bi[k]? = some (i : Int) ∧ m.vocab[i]? = some w ∧
          ∀ j, j < i → m.vocab[j]? ≠ some w) ∧
        (w ∉ m.vocab → bi[k]? = some (-1)) := by
  refine ⟨st.map (firstIndex m.vocab), lookupAll_res m hv st, by simp, ?_⟩
  intro k w hk
  have hb : (st.map (firstIndex m.vocab))[k]? = some (firstIndex m.vocab w) := by
    simp [List.getElem?_map, hk]
  constructor
  · intro hmem
    obtain ⟨i, hi, hget, hmin⟩ := firstIndex_mem m.vocab w hmem
    exact ⟨i, by rw [hb, hi], hget, hmin⟩
  · intro hmem
    rw [hb, firstIndex_not_mem m.vocab w hmem]

/-- Witness of C3 on the sample model with the query `c zz a c`. -/
theorem lookup_first_occurrence_witness :
    ((sampleModel.vocab.length : Int) = sampleModel.words) ∧
    ∃ bi, (lookupAll sampleModel ["c", "zz", "a", "c"]).res = Except.ok bi ∧
      bi.length = ["c", "zz", "a", "c"].length ∧
      ∀ (k : Nat) (w : String), ["c", "zz", "a", "c"][k]? = some w →
        (w ∈ sampleModel.vocab → ∃ i : Nat, bi[k]? = some (i : Int) ∧
          sampleModel.vocab[i]? = some w ∧ ∀ j, j < i → sampleModel.vocab[j]? ≠ some w) ∧
        (w ∉ sampleModel.vocab → bi[k]? = some (-1)) :=
  ⟨by decide, lookup_first_occurrence sampleModel (by decide) ["c", "zz", "a", "c"]⟩

/-- C4, amended: for a model with `len(vocab) = words`, `len(M) = words*size`
and `size <= maxSize`, and every query word list, `initVector` with purpose
`distance` returns a vector of length `maxSize` whose component `a < size` is
the sum, accumulated in query order from zero, of the entries `M[a + i*size]` of
the resolved words (index `i` other than -1); the components from `size` on are
zero.  In particular the component of a single resolved word is the float32 sum
`0 + row[a]`, that of two resolved words is `(0 + row1[a]) + row2[a]`, and the
vector of an empty or all-unresolved list is zero. -/
theorem initVector_distance {F S : Type} (ops : FloatOps F S) (m : Model F)
    (hv : (m.vocab.length : Int) = m.words) (hM : (m.M.length : Int) = m.words * m.size)
    (hs : m.size ≤ (maxSize : Int)) (st : List String) :
    (∃ bi vec, (lookupAll m st).res = Except.ok bi ∧ bi = st.map (firstIndex m.vocab) ∧
      (initVector ops m bi st distance).res = Except.ok vec ∧ vec.length = maxSize ∧
      (∀ a : Nat, (a : Int) < m.size →
        vec[a]? = some (sumAt ops m a (bi.filter (fun i => decide (i ≠ -1))))) ∧
      (∀ a : Nat, m.size ≤ (a : Int) → a < maxSize → vec[a]? = some ops.zero32) ∧
      (∀ i ∈ bi, i ≠ -1 → ∀ a : Nat, (a : Int) < m.size →
        m.M[((a : Int) + i * m.size).toNat]? = some (rowAt ops m i a))) ∧
    (∀ w ∈ m.vocab, ∃ vec, (lookupAll m [w]).res = Except.ok [firstIndex m.vocab w] ∧
      (initVector ops m [firstIndex m.vocab w] [w] distance).res = Except.ok vec ∧
      ∀ a : Nat, (a : Int) < m.size →
        m.M[((a : Int) + firstIndex m.vocab w * m.size).toNat]? =
          some (rowAt ops m (firstIndex m.vocab w) a) ∧
        vec[a]? = some (ops.add32 ops.zero32 (rowAt ops m (firstIndex m.vocab w) a))) ∧
    (∀ w1 ∈ m.vocab, ∀ w2 ∈ m.vocab, ∃ vec,
      (lookupAll m [w1, w2]).res = Except.ok [firstIndex m.vocab w1, firstIndex m.vocab w2] ∧
      (initVector ops m [firstIndex m.vocab w1, firstIndex m.vocab w2] [w1, w2] distance).res =
        Except.ok vec ∧
      ∀ a : Nat, (a : Int) < m.size →
        vec[a]? = some (ops.add32 (ops.add32 ops.zero32 (rowAt ops m (firstIndex m.vocab w1) a))
          (rowAt ops m (firstIndex m.vocab w2) a))) ∧
    (∀ st0 : List String, (∀ w ∈ st0, w ∉ m.vocab) →
      (initVector ops m (st0.map (firstIndex m.vocab)) st0 distance).res =
        Except.ok (List.replicate maxSize ops.zero32)) := by
  have hrange : ∀ w ∈ m.vocab, 0 ≤ firstIndex m.vocab w ∧ firstIndex m.vocab w < m.words := by
    intro w hw
    have := firstIndex_nonneg m.vocab w hw
    omega
  refine ⟨?_, ?_, ?_, ?_⟩
  · obtain ⟨vec, h1, h2, hcomp, hzero⟩ := initVector_distance_sum ops m hv hM hs st
    refine ⟨_, vec, lookupAll_res m hv st, rfl, h1, h2, hcomp, hzero, ?_⟩
    intro i hi hne a ha
    obtain ⟨w, _, hw⟩ := List.mem_map.mp hi
    rcases firstIndex_range m.vocab w with h | h
    · exact absurd (hw ▸ h) hne
    · rw [← hw]
      exact (readM_row ops m hM _ h.1 (by omega) a ha).2
  · intro w hw
    obtain ⟨vec, h1, _, hcomp, _⟩ := initVector_distance_sum ops m hv hM hs [w]
    have hi := firstIndex_nonneg m.vocab w hw
    refine ⟨vec, lookupAll_res m hv [w], h1, ?_⟩
    intro a ha
    refine ⟨(readM_row ops m hM _ (hrange w hw).1 (hrange w hw).2 a ha).2, ?_⟩
    rw [hcomp a ha]
    simp [sumAt, hi.1]
  · intro w1 hw1 w2 hw2
    obtain ⟨vec, h1, _, hcomp, _⟩ := initVector_distance_sum ops m hv hM hs [w1, w2]
    have hi1 := firstIndex_nonneg m.vocab w1 hw1
    have hi2 := firstIndex_nonneg m.vocab w2 hw2
    refine ⟨vec, lookupAll_res m hv [w1, w2], h1, ?_⟩
    intro a ha
    rw [hcomp a ha]
    simp [sumAt, hi1.1, hi2.1]
  · intro st0 hnone
    exact initVector_distance_none ops m hv hM hs st0 hnone

/-- Witness of C4 (amended): the query `a zz c` on the sample model. -/
theorem initVector_distance_witness :
    ((sampleModel.vocab.length : Int) = sampleModel.words) ∧
    ((sampleModel.M.length : Int) = sampleModel.words * sampleModel.size) ∧
    (sampleModel.size ≤ (maxSize : Int)) ∧
    (∃ bi vec, (lookupAll sampleModel ["a", "zz", "c"]).res = Except.ok bi ∧
      bi = ["a", "zz", "c"].map (firstIndex sampleModel.vocab) ∧
      (initVector intOps sampleModel bi ["a", "zz", "c"] distance).res = Except.ok vec ∧
      vec.length = maxSize ∧
      (∀ a : Nat, (a : Int) < sampleModel.size →
        vec[a]? = some (sumAt intOps sampleModel a (bi.filter (fun i => decide (i ≠ -1))))) ∧
      (∀ a : Nat, sampleModel.size ≤ (a : Int) → a < maxSize → vec[a]? = some intOps.zero32) ∧
      (∀ i ∈ bi, i ≠ -1 → ∀ a : Nat, (a : Int) < sampleModel.size →
        sampleModel.M[((a : Int) + i * sampleModel.size).toNat]? =
          some (rowAt intOps sampleModel i a))) ∧
    (∀ w ∈ sampleModel.vocab, ∃ vec,
      (lookupAll sampleModel [w]).res = Except.ok [firstIndex sampleModel.vocab w] ∧
      (initVector intOps sampleModel [firstIndex sampleModel.vocab w] [w] distance).res =
        Except.ok vec ∧
      ∀ a : Nat, (a : Int) < sampleModel.size →
        sampleModel.M[((a : Int) + firstIndex sampleModel.vocab w * sampleModel.size).toNat]? =
          some (rowAt intOps sampleModel (firstIndex sampleModel.vocab w) a) ∧
        vec[a]? = some (intOps.add32 intOps.zero32
          (rowAt intOps sampleModel (firstIndex sampleModel.vocab w) a))) ∧
    (∀ w1 ∈ sampleModel.vocab, ∀ w2 ∈ sampleModel.vocab, ∃ vec,
      (lookupAll sampleModel [w1, w2]).res =
        Except.ok [firstIndex sampleModel.vocab w1, firstIndex sampleModel.vocab w2] ∧
      (initVector intOps sampleModel
        [firstIndex sampleModel.vocab w1, firstIndex sampleModel.vocab w2] [w1, w2] distance).res =
        Except.ok vec ∧
      ∀ a : Nat, (a : Int) < sampleModel.size →
        vec[a]? = some (intOps.add32
          (intOps.add32 intOps.zero32 (rowAt intOps sampleModel (firstIndex sampleModel.vocab w1) a))
          (rowAt intOps sampleModel (firstIndex sampleModel.vocab w2) a))) ∧
    (∀ st0 : List String, (∀ w ∈ st0, w ∉ sampleModel.vocab) →
      (initVector intOps sampleModel (st0.map (firstIndex sampleModel.vocab)) st0 distance).res =
        Except.ok (List.replicate maxSize intOps.zero32)) :=
  ⟨by decide, by decide, by decide,
    initVector_distance intOps sampleModel (by decide) (by decide) (by decide) ["a", "zz", "c"]⟩

/-- C4, counterexample: with a signed zero, on the model whose only row is the
unit vector `(-0, 1)`, the vector of the single resolved word `a` has the
component `0 + (-0) = +0` at index 0, where the row has `-0`: the vector is not
exactly the row. -/
theorem initVector_distance_counterexample :
    ((negZeroModel.vocab.length : Int) = negZeroModel.words) ∧
    ((negZeroModel.M.length : Int) = negZeroModel.words * negZeroModel.size) ∧
    (lookupAll negZeroModel ["a"]).res = Except.ok [0] ∧
    (initVector signedOps negZeroModel [0] ["a"] distance).res =
      Except.ok ((List.replicate maxSize (false, 0)).set 1 (false, 1)) ∧
    ((List.replicate maxSize ((false, 0) : Bool × Nat)).set 1 (false, 1))[0]? =
      some (false, 0) ∧
    negZeroModel.M[0]? = some (true, 0) ∧
    ((false, 0) : Bool × Nat) ≠ (true, 0) := by
  decide!

/-- C5: for a model with `len(vocab) = words`, `len(M) = words*size` and
`size <= maxSize`, and three query words that are all in the vocabulary, with
indices `i1`, `i2`, `i3` (first occurrences), `initVector` with purpose
`analogy` returns a vector whose component `a`, for every `a < size`, is
`M[a + i2*size] - M[a + i1*size] + M[a + i3*size]`. -/
theorem initVector_analogy {F S : Type} (ops : FloatOps F S) (m : Model F)
    (hv : (m.vocab.length : Int) = m.words) (hM : (m.M.length : Int) = m.words * m.size)
    (hs : m.size ≤ (maxSize : Int)) (w1 w2 w3 : String)
    (hw1 : w1 ∈ m.vocab) (hw2 : w2 ∈ m.vocab) (hw3 : w3 ∈ m.vocab) :
    ∃ (i1 i2 i3 : Nat) (vec : List F),
      (lookupAll m [w1, w2, w3]).res = Except.ok [(i1 : Int), (i2 : Int), (i3 : Int)] ∧
      m.vocab[i1]? = some w1 ∧ m.vocab[i2]? = some w2 ∧ m.vocab[i3]? = some w3 ∧
      (initVector ops m [(i1 : Int), (i2 : Int), (i3 : Int)] [w1, w2, w3] analogy).res =
        Except.ok vec ∧
      ∀ a : Nat, (a : Int) < m.size → ∃ x1 x2 x3,
        m.M[a + i1 * m.size.toNat]? = some x1 ∧ m.M[a + i2 * m.size.toNat]? = some x2 ∧
        m.M[a + i3 * m.size.toNat]? = some x3 ∧
        vec[a]? = some (ops.add32 (ops.sub32 x2 x1) x3) := by
  obtain ⟨i1, e1, g1, _⟩ := firstIndex_mem m.vocab w1 hw1
  obtain ⟨i2, e2, g2, _⟩ := firstIndex_mem m.vocab w2 hw2
  obtain ⟨i3, e3, g3, _⟩ := firstIndex_mem m.vocab w3 hw3
  have r1 : 0 ≤ (i1 : Int) ∧ (i1 : Int) < m.words := by
    have := (List.getElem?_eq_some_iff.mp g1).1
    omega
  have r2 : 0 ≤ (i2 : Int) ∧ (i2 : Int) < m.words := by
    have := (List.getElem?_eq_some_iff.mp g2).1
    omega
  have r3 : 0 ≤ (i3 : Int) ∧ (i3 : Int) < m.words := by
    have := (List.getElem?_eq_some_iff.mp g3).1
    omega
  obtain ⟨vec, k1, _, k3⟩ := analogyLoop_ok ops m hM i1 i2 i3 r1 r2 r3 m.size.toNat 0
    (List.replicate maxSize ops.zero32) (by rw [List.length_replicate]; omega) (by omega)
  refine ⟨i1, i2, i3, vec, ?_, g1, g2, g3, ?_, ?_⟩
  · have := lookupAll_res m hv [w1, w2, w3]
    rw [this]
    simp [e1, e2, e3]
  · unfold initVector
    rw [if_neg (by decide), if_pos rfl]
    exact k1
  · intro a ha
    have hsz : 0 ≤ m.size := by omega
    have hidx : ∀ i : Nat, ((a : Int) + (i : Int) * m.size).toNat = a + i * m.size.toNat := by
      intro i
      have h0 : (0 : Int) ≤ (i : Int) * m.size := mul_nonneg (by omega) hsz
      have h1 : ((i * m.size.toNat : Nat) : Int) = (i : Int) * m.size := by
        rw [Nat.cast_mul, Int.toNat_of_nonneg hsz]
      omega
    refine ⟨rowAt ops m i1 a, rowAt ops m i2 a, rowAt ops m i3 a, ?_, ?_, ?_, ?_⟩
    · rw [← hidx i1]
      exact (readM_row ops m hM i1 r1.1 r1.2 a ha).2
    · rw [← hidx i2]
      exact (readM_row ops m hM i2 r2.1 r2.2 a ha).2
    · rw [← hidx i3]
      exact (readM_row ops m hM i3 r3.1 r3.2 a ha).2
    · rw [k3 a, if_pos (by omega)]

/-- Witness of C5: the query `b a c` on the sample model. -/
theorem initVector_analogy_witness :
    ((sampleModel.vocab.length : Int) = sampleModel.words) ∧
    ((sampleModel.M.length : Int) = sampleModel.words * sampleModel.size) ∧
    (sampleModel.size ≤ (maxSize : Int)) ∧
    "b" ∈ sampleModel.vocab ∧ "a" ∈ sampleModel.vocab ∧ "c" ∈ sampleModel.vocab ∧
    ∃ (i1 i2 i3 : Nat) (vec : List Int),
      (lookupAll sampleModel ["b", "a", "c"]).res =
        Except.ok [(i1 : Int), (i2 : Int), (i3 : Int)] ∧
      sampleModel.vocab[i1]? = some "b" ∧ sampleModel.vocab[i2]? = some "a" ∧
      sampleModel.vocab[i3]? = some "c" ∧
      (initVector intOps sampleModel [(i1 : Int), (i2 : Int), (i3 : Int)] ["b", "a", "c"]
        analogy).res = Except.ok vec ∧
      ∀ a : Nat, (a : Int) < sampleModel.size → ∃ x1 x2 x3,
        sampleModel.M[a + i1 * sampleModel.size.toNat]? = some x1 ∧
        sampleModel.M[a + i2 * sampleModel.size.toNat]? = some x2 ∧
        sampleModel.M[a + i3 * sampleModel.size.toNat]? = some x3 ∧
        vec[a]? = some (intOps.add32 (intOps.sub32 x2 x1) x3) :=
  ⟨by decide, by decide, by decide, by decide, by decide, by decide,
    initVector_analogy intOps sampleModel (by decide) (by decide) (by decide) "b" "a" "c"
      (by decide) (by decide) (by decide)⟩

/-- C6, evaluation at the failing input: on the model of four unit rows
(`size = 2`, 8 matrix entries) the analogy query `a b zz`, whose third word is
not in the vocabulary, reads `M[2]` and `M[0]` and then indexes `M` with
`0 + (-1)*2 = -2`; the run ends in the index-out-of-range panic of that access,
in `distances` and in `handleAnalogy` alike. -/
theorem analogy_unresolved_evaluation :
    (lookupAll unitModel ["a", "b", "zz"]).res = Except.ok [0, 1, -1] ∧
    distances intOps unitModel ["a", "b", "zz"] analogy =
      ⟨[2, 0, -2], Except.error (Panic.indexOutOfRange Slice.M (-2) 8)⟩ ∧
    handleAnalogy intOps (some unitModel) "a b zz" =
      ⟨[2, 0, -2], Except.error (Panic.indexOutOfRange Slice.M (-2) 8)⟩ := by
  decide!

/-- C7, amended: for a form value that `strings.Split` does not cut in exactly
three words, `handleAnalogy` writes `3 WORDS!` and does not call
`Model.distances`: no entry of `M` is accessed, whatever the process-wide model
(also a nil pointer). -/
theorem handleAnalogy_shape {F S : Type} [LinearOrder S] [Zero S] (ops : FloatOps F S)
    (model : Option (Model F)) (word : String) (h : (stringsSplit word).length ≠ 3) :
    handleAnalogy ops model word = ⟨[], Except.ok "3 WORDS!"⟩ := by
  unfold handleAnalogy
  simp only [h, ne_eq, not_false_eq_true, if_true]
  rfl

/-- Witness of C7 (amended): the form value `a b`, of two words. -/
theorem handleAnalogy_shape_witness :
    (stringsSplit "a b").length ≠ 3 ∧
    handleAnalogy intOps (some sampleModel) "a b" = ⟨[], Except.ok "3 WORDS!"⟩ :=
  ⟨by decide, handleAnalogy_shape intOps (some sampleModel) "a b" (by decide)⟩

/-- C7, counterexample: `Model.distances` itself makes no check of the number of
words.  On the model of four unit rows, with the four words `a b c d` the
analogy query returns a list, without any error, after six accesses to `M`; with
the two words `a b` it reads `M[2]` and `M[0]` and then panics on `bi[2]`. -/
theorem analogy_shape_counterexample :
    distances intOps unitModel ["a", "b", "c", "d"] analogy =
      ⟨[2, 0, 4, 3, 1, 5], Except.ok (List.replicate 40 emptySlot)⟩ ∧
    distances intOps unitModel ["a", "b"] analogy =
      ⟨[2, 0], Except.error (Panic.indexOutOfRange Slice.bi 2 2)⟩ := by
  decide!

/-- C9: the list that `Model.distances` returns has exactly `N = 40` entries
and is the reference top-K list: the non-excluded rows whose score is strictly
greater than 0, in descending score with ties in ascending row index, cut to 40
and padded with empty slots.  A row of the list is a candidate with a score
strictly greater than 0, and when no candidate has such a score the list is 40
empty slots.  The function does return for a model with `len(vocab) = words`,
`len(M) = words*size` and `size <= maxSize`, in analogy mode when the query is
three words of the vocabulary. -/
theorem distances_topK {F S : Type} [LinearOrder S] [Zero S] (ops : FloatOps F S)
    (m : Model F) (st : List String) (purpose : String) :
    (∀ r : List (wordDistance S), (distances ops m st purpose).res = Except.ok r →
      r.length = N ∧
      ∃ bi vec, (lookupAll m st).res = Except.ok bi ∧
        (initVector ops m bi st purpose).res = Except.ok vec ∧
        r = topKReference (score ops m (normalize ops vec)) (fun c => m.vocab.getD c "")
          (candidates m bi) ∧
        (∀ p ∈ topRows (score ops m (normalize ops vec)) (candidates m bi),
          p.1 ∈ candidates m bi ∧ score ops m (normalize ops vec) p.1 = some p.2 ∧ 0 < p.2) ∧
        ((∀ c ∈ candidates m bi, ¬ gt64 (score ops m (normalize ops vec) c) zero64 = true) →
          r = List.replicate N emptySlot)) ∧
    ((m.vocab.length : Int) = m.words → (m.M.length : Int) = m.words * m.size →
      m.size ≤ (maxSize : Int) →
      (purpose = analogy →
        ∃ w1 w2 w3, st = [w1, w2, w3] ∧ w1 ∈ m.vocab ∧ w2 ∈ m.vocab ∧ w3 ∈ m.vocab) →
      ∃ r : List (wordDistance S), (distances ops m st purpose).res = Except.ok r) := by
  constructor
  · intro r h
    obtain ⟨bi, vec, hbi, hvec, hr⟩ := distances_reference ops m st purpose r h
    refine ⟨by rw [hr]; exact topKReference_length _ _ _, bi, vec, hbi, hvec, hr, ?_, ?_⟩
    · intro p hp
      exact mem_topRows _ _ p hp
    · intro hneg
      rw [hr, topKReference, topRows, positives_nil_of_no_gt _ _ hneg]
      rfl
  · intro hv hM hs hp
    exact distances_returns ops m hv hM hs st purpose hp

/-- Witness of C9: the query `a` in distance mode on the sample model. -/
theorem distances_topK_witness :
    (distances intOps sampleModel ["a"] distance).res = Except.ok sampleResult ∧
    sampleResult.length = N ∧
    ∃ bi vec, (lookupAll sampleModel ["a"]).res = Except.ok bi ∧
      (initVector intOps sampleModel bi ["a"] distance).res = Except.ok vec ∧
      sampleResult = topKReference (score intOps sampleModel (normalize intOps vec))
        (fun c => sampleModel.vocab.getD c "") (candidates sampleModel bi) ∧
      (∀ p ∈ topRows (score intOps sampleModel (normalize intOps vec)) (candidates sampleModel bi),
        p.1 ∈ candidates sampleModel bi ∧
        score intOps sampleModel (normalize intOps vec) p.1 = some p.2 ∧ 0 < p.2) ∧
      ((∀ c ∈ candidates sampleModel bi,
          ¬ gt64 (score intOps sampleModel (normalize intOps vec) c) zero64 = true) →
        sampleResult = List.replicate N emptySlot) :=
  ⟨by decide!, (distances_topK intOps sampleModel ["a"] distance).1 sampleResult (by decide!)⟩

/-- C10, amended: whenever `Model.distances` returns, rank `k` of the list holds
the entry of the `k`-th row of the reference ranking, and for two non-excluded
rows `i < j` with equal scores `d` the later row never stands at or above the
earlier one: if row `j` is at rank `kj`, row `i` is at a rank `ki < kj`.  Row `j`
is not dropped on account of the tie: when `d > 0` and at most `N = 40`
candidates have a score greater than 0, both rows are in the list. -/
theorem distances_ties {F S : Type} [LinearOrder S] [Zero S] (ops : FloatOps F S)
    (m : Model F) (st : List String) (purpose : String) (r : List (wordDistance S))
    (h : (distances ops m st purpose).res = Except.ok r) :
    ∃ bi vec, (lookupAll m st).res = Except.ok bi ∧
      (initVector ops m bi st purpose).res = Except.ok vec ∧
      (∀ (k : Nat) (p : Nat × S),
        (topRows (score ops m (normalize ops vec)) (candidates m bi))[k]? = some p →
        r[k]? = some ⟨m.vocab.getD p.1 "", some p.2⟩) ∧
      ∀ (i j : Nat) (d : S), i < j → i ∈ candidates m bi → j ∈ candidates m bi →
        score ops m (normalize ops vec) i = some d →
        score ops m (normalize ops vec) j = some d →
        (∀ kj : Nat,
          (topRows (score ops m (normalize ops vec)) (candidates m bi))[kj]? = some (j, d) →
          ∃ ki, ki < kj ∧
            (topRows (score ops m (normalize ops vec)) (candidates m bi))[ki]? = some (i, d)) ∧
        (0 < d → (positives (score ops m (normalize ops vec)) (candidates m bi)).length ≤ N →
          (i, d) ∈ topRows (score ops m (normalize ops vec)) (candidates m bi) ∧
          (j, d) ∈ topRows (score ops m (normalize ops vec)) (candidates m bi)) := by
  obtain ⟨bi, vec, hbi, hvec, hr⟩ := distances_reference ops m st purpose r h
  refine ⟨bi, vec, hbi, hvec, ?_, ?_⟩
  · intro k p hk
    rw [hr]
    exact topKReference_getElem? _ _ _ k p hk
  · intro i j d hij hi hj hsi hsj
    refine ⟨fun kj hkj => tie_order _ _ i j d hij hi hsi kj hkj, ?_⟩
    intro hd hlen
    exact ⟨topRows_all _ _ hlen i d hi hsi hd, topRows_all _ _ hlen j d hj hsj hd⟩

/-- Witness of C10 (amended): the query `q` in distance mode on the model whose
rows 1 and 2 tie. -/
theorem distances_ties_witness :
    (distances intOps tieModel ["q"] distance).res =
      Except.ok ([⟨"x", some 1⟩, ⟨"y", some 1⟩] ++ List.replicate 38 emptySlot) ∧
    ∃ bi vec, (lookupAll tieModel ["q"]).res = Except.ok bi ∧
      (initVector intOps tieModel bi ["q"] distance).res = Except.ok vec ∧
      (∀ (k : Nat) (p : Nat × Int),
        (topRows (score intOps tieModel (normalize intOps vec)) (candidates tieModel bi))[k]? =
          some p →
        ([⟨"x", some 1⟩, ⟨"y", some 1⟩] ++ List.replicate 38 emptySlot)[k]? =
          some ⟨tieModel.vocab.getD p.1 "", some p.2⟩) ∧
      ∀ (i j : Nat) (d : Int), i < j → i ∈ candidates tieModel bi → j ∈ candidates tieModel bi →
        score intOps tieModel (normalize intOps vec) i = some d →
        score intOps tieModel (normalize intOps vec) j = some d →
        (∀ kj : Nat,
          (topRows (score intOps tieModel (normalize intOps vec)) (candidates tieModel bi))[kj]? =
            some (j, d) →
          ∃ ki, ki < kj ∧
            (topRows (score intOps tieModel (normalize intOps vec)) (candidates tieModel bi))[ki]? =
              some (i, d)) ∧
        (0 < d →
          (positives (score intOps tieModel (normalize intOps vec))
            (candidates tieModel bi)).length ≤ N →
          (i, d) ∈ topRows (score intOps tieModel (normalize intOps vec))
            (candidates tieModel bi) ∧
          (j, d) ∈ topRows (score intOps tieModel (normalize intOps vec))
            (candidates tieModel bi)) :=
  ⟨by decide!, distances_ties intOps tieModel ["q"] distance _ (by decide!)⟩

/-- C10, counterexample: rows 1 and 2 of the model are not excluded by the query
`q` (whose index is 0) and have the same score 1; the later row 2 (word `y`) is
not dropped: its entry is inserted at rank 1, below the entry of row 1. -/
theorem distances_tie_counterexample :
    (lookupAll tieModel ["q"]).res = Except.ok [0] ∧
    (distances intOps tieModel ["q"] distance).res =
      Except.ok ([⟨"x", some 1⟩, ⟨"y", some 1⟩] ++ List.replicate 38 emptySlot) ∧
    (initVector intOps tieModel [0] ["q"] distance).res =
      Except.ok ((List.replicate maxSize 0).set 0 1) ∧
    score intOps tieModel (normalize intOps ((List.replicate maxSize 0).set 0 1)) 1 = some 1 ∧
    score intOps tieModel (normalize intOps ((List.replicate maxSize 0).set 0 1)) 2 = some 1 :=
  ⟨by decide!, by decide!, by decide!, by decide!, by decide!⟩

end Word2vec
